import Mathlib

/-!
Verification development for the devicetree-parse repository.

The binary buffer is modelled as a `List Nat` of bytes; C pointers into the
buffer become `Nat` offsets from the buffer start, and the exclusive bound
`data_end` becomes the offset `endOff`.  All reads performed by the C code are
guarded by explicit bounds checks before the dereference, so reads are modelled
with `List.getD _ _ 0`; a read is only reachable after the corresponding bound
check succeeded, exactly as in the source.

`devicetree_iterate_node` (devicetree-parse.c) is embedded as `iterNode`.
The C recursion depth is bounded by a `fuel` parameter; `devicetree_iterate`
supplies `size + 1` fuel, which is sufficient for every run (each recursion
level consumes at least the 8-byte node header, so the recursion depth on a
buffer of `size` bytes is below the fuel).  Callbacks are modelled as pure
state transformers; the returned `Bool` is the value the callback leaves in
`*stop`.
-/

namespace DTParse

/-- Little-endian unsigned 32-bit read at `off`, as done by reading the
`uint32_t` fields of `struct devicetree_node` / `struct devicetree_property`
on a little-endian machine. -/
def readU32 (buf : List Nat) (off : Nat) : Nat :=
  buf.getD off 0 + 256 * buf.getD (off + 1) 0 + 65536 * buf.getD (off + 2) 0 +
    16777216 * buf.getD (off + 3) 0

/-- Result of one traversal call: `fail` is C `return false`; `stopped dv` and
`done dv` are C `return true` with `*data = dv`, distinguished by whether the
return was caused by an observer-requested stop. -/
inductive IterResult where
  | fail : IterResult
  | stopped (dataVal : Nat) : IterResult
  | done (dataVal : Nat) : IterResult
  deriving DecidableEq

/-- The boolean actually returned to the caller of `devicetree_iterate`. -/
def IterResult.ok : IterResult → Bool
  | .fail => false
  | .stopped _ => true
  | .done _ => true

/-- Node callback model: arguments `depth`, node offset, `size` (bytes from the
node to the buffer end), `n_properties`, `n_children`, plus the threaded
observer state; returns the new state and the `*stop` value. -/
abbrev NodeCb (σ : Type) := Nat → Nat → Nat → Nat → Nat → σ → σ × Bool

/-- Property callback model: arguments `depth`, the 32-byte name field, the
payload bytes, the (unpadded, flag-masked) size, plus the observer state. -/
abbrev PropCb (σ : Type) := Nat → List Nat → List Nat → Nat → σ → σ × Bool

/-- One property-header parse step of `devicetree_iterate_node`
(devicetree-parse.c lines 45-70, up to the callback): check that the 36-byte
property header fits, that the last byte of the 32-byte name field is NUL,
mask flag bit 31 off the size (`& ~0x80000000` on a `uint32_t`, i.e.
`% 2^31`), advance by the size rounded up to a multiple of 4
(`(size + 3) & ~3`), and accept an unpadded final property whose payload ends
exactly at the buffer end.  Returns the masked payload size and the next
offset, or `none` for a structural failure. -/
def propStep (buf : List Nat) (endOff p : Nat) : Option (Nat × Nat) :=
  if p + 36 > endOff then
    none
  else if buf.getD (p + 31) 0 ≠ 0 then
    none
  else
    let propSize := readU32 buf (p + 32) % 2147483648
    let paddedSize := (propSize + 3) / 4 * 4
    if p + 36 + paddedSize > endOff then
      if p + 36 + propSize = endOff then some (propSize, endOff) else none
    else
      some (propSize, p + 36 + paddedSize)

/-- Result of the property loop: failure, observer stop, or the offset just
past the last property. -/
inductive PropLoopResult where
  | fail : PropLoopResult
  | stopped : PropLoopResult
  | ok (p : Nat) : PropLoopResult
  deriving DecidableEq

/-- The `for (i = 0; i < n_properties; i++)` loop of
`devicetree_iterate_node`: parse each property header via `propStep`, then
invoke the property callback (if any) with `depth + 1`, the 32-byte name
field, the unpadded payload and its masked size, propagating stop requests
and failures exactly as the C does. -/
def propLoop {σ : Type} (buf : List Nat) (endOff : Nat) (propCb : Option (PropCb σ))
    (depth : Nat) : Nat → Nat → σ → σ × PropLoopResult
  | p, 0, s => (s, .ok p)
  | p, n + 1, s =>
    match propStep buf endOff p with
    | none => (s, .fail)
    | some (psz, pNext) =>
      match propCb with
      | none => propLoop buf endOff propCb depth pNext n s
      | some cb =>
        let name := (buf.drop p).take 32
        let value := (buf.drop (p + 36)).take psz
        match cb (depth + 1) name value psz s with
        | (s', true) => (s', .stopped)
        | (s', false) => propLoop buf endOff propCb depth pNext n s'

/-- The `for (i = 0; i < n_children; i++)` recursion loop of
`devicetree_iterate_node`, abstracted over the child parser: run `child` on
the current `*data` value, abort on failure, return immediately (successfully)
on an observer stop, and otherwise continue with the updated `*data`. -/
def childLoop {σ : Type} (child : Nat → σ → σ × IterResult) :
    Nat → Nat → σ → σ × IterResult
  | dataVal, 0, s => (s, .done dataVal)
  | dataVal, n + 1, s =>
    match child dataVal s with
    | (s', .fail) => (s', .fail)
    | (s', .stopped dv) => (s', .stopped dv)
    | (s', .done dv) => childLoop child dv n s'

/-- `devicetree_iterate_node` (devicetree-parse.c lines 20-93).  Parse the
8-byte node header, invoke the node callback (stop means immediate successful
return with `*data` untouched), iterate the properties (stop during the loop
also leaves `*data` untouched), commit `*data` to the offset past the
properties, then recurse into each child.  `fuel` bounds the recursion
depth. -/
def iterNode {σ : Type} (buf : List Nat) (endOff : Nat) (nodeCb : Option (NodeCb σ))
    (propCb : Option (PropCb σ)) : Nat → Nat → Nat → σ → σ × IterResult
  | 0, _, _, s => (s, .fail)
  | fuel + 1, off, depth, s =>
    if off + 8 > endOff then
      (s, .fail)
    else
      let nProps := readU32 buf off
      let nChildren := readU32 buf (off + 4)
      match (match nodeCb with
             | none => (s, false)
             | some cb => cb depth off (endOff - off) nProps nChildren s) with
      | (s1, true) => (s1, .stopped off)
      | (s1, false) =>
        match propLoop buf endOff propCb depth (off + 8) nProps s1 with
        | (s2, .fail) => (s2, .fail)
        | (s2, .stopped) => (s2, .stopped off)
        | (s2, .ok p) =>
          childLoop (fun dv s' => iterNode buf endOff nodeCb propCb fuel dv (depth + 1) s')
            p nChildren s2

/-- `devicetree_iterate` (devicetree-parse.c lines 95-102): run the recursive
traversal from the buffer start at depth 0 with a fresh (false) stop flag.
The fuel `buf.length + 1` strictly dominates the recursion depth, since every
recursion level first consumes an 8-byte node header. -/
def devicetree_iterate {σ : Type} (buf : List Nat) (nodeCb : Option (NodeCb σ))
    (propCb : Option (PropCb σ)) (s : σ) : σ × IterResult :=
  iterNode buf buf.length nodeCb propCb (buf.length + 1) 0 0 s

/-- `devicetree_node_scan_properties` (devicetree-parse.c lines 104-115):
iterate with the `do_not_scan_children` node observer, which requests a stop
as soon as the entered node's depth is nonzero. -/
def devicetree_node_scan_properties {σ : Type} (buf : List Nat)
    (propCb : Option (PropCb σ)) (s : σ) : σ × IterResult :=
  devicetree_iterate buf
    (some fun depth _ _ _ _ st => (st, decide (depth ≠ 0))) propCb s

/-! ### ValueClassifier (`compute_display_type` and helpers)

These embed the classifier variant declared in devicetree-parse.h's companion
driver (the one with `struct segment_range` and `check_phys_ranges`).
Property names are modelled as the byte list of the C string (up to, not
including, its NUL terminator); indexing past the end reads 0, matching the
terminator. -/

/-- Little-endian unsigned 64-bit read at `off` (reading a `uint64_t` field on
a little-endian machine). -/
def readU64 (buf : List Nat) (off : Nat) : Nat :=
  buf.getD off 0 + 256 * buf.getD (off + 1) 0 + 65536 * buf.getD (off + 2) 0 +
    16777216 * buf.getD (off + 3) 0 + 4294967296 * buf.getD (off + 4) 0 +
    1099511627776 * buf.getD (off + 5) 0 + 281474976710656 * buf.getD (off + 6) 0 +
    72057594037927936 * buf.getD (off + 7) 0

/-- ASCII bytes of a Lean string literal, used for the C string constants. -/
def strBytes (s : String) : List Nat := s.toList.map Char.toNat

/-- C `isprint` in the C locale on a byte value: true exactly for 0x20..0x7e. -/
def isprintB (c : Nat) : Bool := 32 ≤ c && c ≤ 126

/-- `all_printable_ascii`: every byte of the range is printable. -/
def all_printable_ascii (l : List Nat) : Bool := l.all isprintB

/-- `struct measure_string_info`. -/
structure MeasureInfo where
  printable : Nat
  first_null : Nat
  after_null : Nat
  null_count : Nat
  printable_run_count : Nat
  deriving DecidableEq

/-- Loop body of `measure_string`, in the statement order of the C loop;
`run` is the local `current_printable_run`, `i` the loop index, `size` the
total size (the sentinel value of `first_null`).  The final step flushes a
trailing printable run of length at least 8, as the code after the loop
does. -/
def measureGo (size : Nat) : List Nat → Nat → MeasureInfo → Nat → MeasureInfo
  | [], _, st, run =>
    if 8 ≤ run then { st with printable_run_count := st.printable_run_count + run } else st
  | b :: rest, i, st, run =>
    let st1 := if b = 0 then { st with null_count := st.null_count + 1 } else st
    let p := if isprintB b then ({ st1 with printable := st1.printable + 1 }, run + 1)
      else ((if 8 ≤ run then { st1 with printable_run_count := st1.printable_run_count + run }
             else st1), 0)
    let st2 := p.1
    let st3 := if st2.first_null ≠ size ∧ b ≠ 0 then { st2 with after_null := st2.after_null + 1 }
      else st2
    let st4 := if b = 0 ∧ st3.first_null = size then { st3 with first_null := i } else st3
    measureGo size rest (i + 1) st4 p.2

/-- `measure_string`: statistics over the value bytes. -/
def measure_string (data : List Nat) : MeasureInfo :=
  measureGo data.length data 0 ⟨0, data.length, 0, 0, 0⟩ 0

/-- `check_phys_ranges`: every 16-byte `struct phys_range` record has
`phys <= 0x980000000`, `phys & 0xfff == 0`, and `size <= 0x80000000`. -/
def check_phys_ranges (data : List Nat) : Bool :=
  (List.range (data.length / 16)).all fun i =>
    decide (readU64 data (16 * i) ≤ 0x980000000) &&
    decide (readU64 data (16 * i) % 0x1000 = 0) &&
    decide (readU64 data (16 * i + 8) ≤ 0x80000000)

/-- `enum display_type`. -/
inductive DisplayType where
  | DISP_HEX_DUMP
  | DISP_HEX_INT
  | DISP_DEC_INT
  | DISP_STRING
  | DISP_HEX_STRING
  | DISP_FUNCTION_PROP
  | DISP_PHYS_RANGES
  | DISP_SEGMENT_RANGES
  deriving DecidableEq

/-- `compute_display_type`: the ordered classification heuristics.
`sizeof(struct segment_range)` is 32 and `sizeof(struct phys_range)` is 16.
The three floating-point threshold comparisons are modelled as exact rational
comparisons: `0.75` is exactly representable in binary, so
`printable >= 0.75 * size` is exactly `4 * printable >= 3 * size` for every
feasible `size_t`; the `0.90` and `0.6` literals round to doubles within
2^-53 of the rational value, so the modelled comparison can differ from the
compiled one only when the count sits exactly on the rational threshold
(none of the verified claims depends on those two thresholds). -/
def compute_display_type (name data : List Nat) : DisplayType :=
  let size := data.length
  if size = 1 ∨ size = 2 then .DISP_HEX_INT
  else if name.getD 0 0 = 35 then .DISP_DEC_INT
  else if 0 < size ∧ size % 32 = 0 ∧ name = strBytes "segment-ranges" then .DISP_SEGMENT_RANGES
  else
    let string := measure_string data
    if string.printable = string.first_null ∧ string.after_null = 0 ∧
        ((size ≠ 4 ∧ size ≠ 8) ∨ size - 1 ≤ string.printable) then .DISP_STRING
    else if strBytes "function-" <+: name ∧ 8 ≤ size ∧ size % 4 = 0 ∧
        all_printable_ascii ((data.drop 4).take 4) then .DISP_FUNCTION_PROP
    else if 3 * size ≤ 4 * string.printable then .DISP_HEX_STRING
    else if 0 < size ∧ size % 16 = 0 ∧
        (strBytes "reg" <:+: name ∨ check_phys_ranges data) then .DISP_PHYS_RANGES
    else if 2 ≤ string.printable ∧ 24 ≤ size ∧
        9 * size ≤ 10 * (string.printable + string.null_count) then .DISP_HEX_STRING
    else if 0 < string.printable_run_count ∧ 24 ≤ size ∧
        6 * size ≤ 10 * (string.printable_run_count + string.null_count) then .DISP_HEX_STRING
    else if size = 4 ∨ size = 8 then .DISP_HEX_INT
    else .DISP_HEX_DUMP

/-! ### ValueFormatter text (the devicetree-parse.h variant printers)

The printers emit text through `strbuf_printf`; the definitions here give the
emitted text itself (the output of an unbounded sink), one byte list per
rendered value.  The capacity-bounded sink behaviour is modelled separately by
`Strbuf` below. -/

/-- Lowercase hex digit of a nibble, as `%x` prints it. -/
def hexDigitChar (n : Nat) : Nat := if n < 10 then 48 + n else 87 + n

/-- Text emitted for one payload byte by the loop body of
`print_property_hex_string` (devicetree-parse.h variant): first a backslash
when the byte is `'\'` or `'"'`, then `\0` for NUL, the byte itself when
printable, and `\xHH` otherwise (payload bytes are `uint8_t`, so `%02x`
prints exactly two lowercase digits). -/
def escByte (c : Nat) : List Nat :=
  (if c = 92 ∨ c = 34 then [92] else []) ++
  (if c = 0 then [92, 48]
   else if isprintB c then [c]
   else [92, 120, hexDigitChar (c / 16), hexDigitChar (c % 16)])

/-- `print_property_hex_string`: a double quote, each byte escaped, a closing
double quote. -/
def print_property_hex_string (data : List Nat) : List Nat :=
  [34] ++ data.flatMap escByte ++ [34]

/-- `strnlen(data, size)` with `size = data.length`: the length of the
NUL-terminated prefix. -/
def strnlenAll (data : List Nat) : Nat := (data.takeWhile (fun b => b ≠ 0)).length

/-- `print_property_string`: render only the NUL-terminated prefix, with the
same escaping. -/
def print_property_string (data : List Nat) : List Nat :=
  print_property_hex_string (data.take (strnlenAll data))

/-- `print_property_function`: the full byte range with the same escaping. -/
def print_property_function (data : List Nat) : List Nat :=
  print_property_hex_string data

/-- Modelled from the spec: per-byte escaping as §4.3 words it — backslash and
double quote are backslash-escaped, NUL becomes `\0`, every other
non-printable byte becomes `\xHH`, printable bytes pass through.  Used only as
the comparison point for the refinement theorem for C8. -/
def escapeSpecByte (c : Nat) : List Nat :=
  if c = 92 then [92, 92]
  else if c = 34 then [92, 34]
  else if c = 0 then [92, 48]
  else if isprintB c then [c]
  else [92, 120, hexDigitChar (c / 16), hexDigitChar (c % 16)]

/-- Failure of one property parse, as the specification words it: the 36-byte
property header does not fit in the remaining buffer, or the last byte of the
32-byte name field is not NUL, or advancing by the payload size (flag bit 31
masked off) rounded up to the next multiple of 4 exceeds the buffer end —
except that a property whose unpadded payload end lands exactly on the buffer
end is accepted without its padding.  Comparison point for C3. -/
def propFailureSpec (buf : List Nat) (endOff p : Nat) : Prop :=
  endOff < p + 36 ∨
  buf.getD (p + 31) 0 ≠ 0 ∨
  (endOff < p + 36 + 4 * ((readU32 buf (p + 32) % 2 ^ 31 + 3) / 4) ∧
   p + 36 + readU32 buf (p + 32) % 2 ^ 31 ≠ endOff)

/-! ### The bounded growable output sink (`struct strbuf`)

`str` holds the meaningful bytes stored before the NUL terminator (the C
array bytes past the terminator are unreachable garbage); `pos`, `cap` and
`max` are the corresponding fields.  One `strbuf_printf` call is modelled on
the formatted text of that call: `vsnprintf` writes at most `size - 1` bytes
plus a terminator when `size > 0`, writes nothing when `size = 0`, and
returns the full formatted length. -/

structure Strbuf where
  str : List Nat
  pos : Nat
  cap : Nat
  max : Nat
  deriving DecidableEq

/-- `strbuf_alloc`: initial capacity 0x4000 clamped to the configured
maximum. -/
def strbuf_alloc (maxCap : Nat) : Strbuf :=
  { str := [], pos := 0, cap := min 16384 maxCap, max := maxCap }

/-- `cap - 1` in `size_t` arithmetic (wraps at zero). -/
def capSub1 (cap : Nat) : Nat := if cap = 0 then 2 ^ 64 - 1 else cap - 1

/-- `strbuf_vprintf_no_grow` on the formatted text of the call: compute the
usable size, write the truncated text at `pos` when the size is nonzero, and
either commit the new position (success) or report the required capacity
`new_pos + 1` (failure), leaving `pos` untouched. -/
def strbuf_vprintf_no_grow (sb : Strbuf) (text : List Nat) : Strbuf × Bool × Nat :=
  let size := if capSub1 sb.cap ≤ sb.pos ∨ sb.cap = 0 then 0 else sb.cap - sb.pos
  let str1 := if size = 0 then sb.str else sb.str.take sb.pos ++ text.take (size - 1)
  let newPos := sb.pos + text.length
  if capSub1 sb.cap < newPos then
    ({ sb with str := str1 }, false, newPos + 1)
  else
    ({ sb with str := str1, pos := newPos }, true, 0)

/-- `strbuf_printf`: try without growing; on overflow either record the
would-be position past the maximum and report failure, or grow (`realloc`
preserves the contents) to exactly the required capacity and retry, which the
C code asserts to succeed. -/
def strbuf_printf (sb : Strbuf) (text : List Nat) : Strbuf × Bool :=
  match strbuf_vprintf_no_grow sb text with
  | (sb1, true, _) => (sb1, true)
  | (sb1, false, reqCap) =>
    if sb.max < reqCap then
      ({ sb1 with pos := reqCap - 1 }, false)
    else
      ((strbuf_vprintf_no_grow { sb1 with cap := reqCap } text).1, true)

/-- Chained emission, as every `print_property_*` loop chains `ok &&`: write
each chunk in order and stop at the first incomplete write. -/
def strbuf_print_list (sb : Strbuf) : List (List Nat) → Strbuf × Bool
  | [] => (sb, true)
  | t :: ts =>
    match strbuf_printf sb t with
    | (sb1, true) => strbuf_print_list sb1 ts
    | (sb1, false) => (sb1, false)

/-! ### Structurally valid trees and their encoding

`DTTree`/`DTProp` describe the abstract tree of §3 of the format: a node is
two little-endian 32-bit counts, its properties in order, then its children's
complete subtrees in order; a property is a 32-byte NUL-terminated name
field, a little-endian 32-bit size, the payload, and zero padding to the next
multiple of 4.  `wfTree` is the structural validity used by the claims. -/

structure DTProp where
  name : List Nat
  value : List Nat
  deriving DecidableEq

inductive DTTree where
  | node (props : List DTProp) (children : List DTTree)

/-- Direct properties of a node. -/
def DTTree.props : DTTree → List DTProp
  | .node ps _ => ps

/-- Direct children of a node. -/
def DTTree.children : DTTree → List DTTree
  | .node _ cs => cs

/-- Little-endian 32-bit encoding. -/
def u32le (n : Nat) : List Nat := [n % 256, n / 256 % 256, n / 65536 % 256, n / 16777216 % 256]

/-- Number of zero-padding bytes after a payload of `n` bytes. -/
def padLen (n : Nat) : Nat := (n + 3) / 4 * 4 - n

/-- Encoding of one property: name field, size field, payload, padding. -/
def encProp (pr : DTProp) : List Nat :=
  pr.name ++ u32le pr.value.length ++ pr.value ++ List.replicate (padLen pr.value.length) 0

/-- Encoding of a property list, in order. -/
def encProps : List DTProp → List Nat
  | [] => []
  | pr :: rest => encProp pr ++ encProps rest

mutual
/-- Encoding of a tree: header, properties, children's subtrees. -/
def enc : DTTree → List Nat
  | .node ps cs => u32le ps.length ++ u32le cs.length ++ encProps ps ++ encChildren cs

/-- Encoding of a child list, in order. -/
def encChildren : List DTTree → List Nat
  | [] => []
  | t :: ts => enc t ++ encChildren ts
end

/-- Structural validity of one property: 32-byte name field ending in NUL,
payload below the 2^31 size mask, all bytes being bytes. -/
def wfProp (pr : DTProp) : Bool :=
  decide (pr.name.length = 32) && decide (pr.name.getD 31 0 = 0) &&
  pr.name.all (fun b => decide (b < 256)) &&
  decide (pr.value.length < 2147483648) && pr.value.all (fun b => decide (b < 256))

mutual
/-- Structural validity of a tree: in-range counts, valid properties, valid
children. -/
def wfTree : DTTree → Bool
  | .node ps cs => decide (ps.length < 4294967296) && decide (cs.length < 4294967296) &&
      ps.all wfProp && wfChildren cs

/-- Structural validity of a child list. -/
def wfChildren : List DTTree → Bool
  | [] => true
  | t :: ts => wfTree t && wfChildren ts
end

/-- Padding bytes of the last property of a list (0 when empty). -/
def padFinalProps (ps : List DTProp) : Nat :=
  match ps.getLast? with
  | none => 0
  | some pr => padLen pr.value.length

mutual
/-- Padding bytes trailing the encoding, i.e. the padding of the byte-wise
final property of the whole encoded subtree (0 when the last node carries no
property). -/
def padFinalT : DTTree → Nat
  | .node ps [] => padFinalProps ps
  | .node _ (c :: cs) => padFinalC c cs
termination_by t => sizeOf t

/-- `padFinalT` of the last tree among a nonempty child list. -/
def padFinalC : DTTree → List DTTree → Nat
  | c, [] => padFinalT c
  | _, c' :: cs => padFinalC c' cs
termination_by c cs => sizeOf c + sizeOf cs
end

/-- The node callback never requests a stop. -/
def NoStopN {σ : Type} (cb : Option (NodeCb σ)) : Prop :=
  ∀ f, cb = some f → ∀ d o sz a b st, (f d o sz a b st).2 = false

/-- The property callback never requests a stop. -/
def NoStopP {σ : Type} (cb : Option (PropCb σ)) : Prop :=
  ∀ f, cb = some f → ∀ d nm v sz st, (f d nm v sz st).2 = false

/-- The bytes of `l` occur in `buf` starting at `off`. -/
def sliceEq (buf : List Nat) (off : Nat) (l : List Nat) : Prop :=
  ∀ i, i < l.length → buf.getD (off + i) 0 = l.getD i 0

/-- The bytes of `l` occur in `buf` starting at `off`, up to the cut
`endOff`. -/
def sliceEqPartial (buf : List Nat) (off : Nat) (l : List Nat) (endOff : Nat) : Prop :=
  ∀ i, i < l.length → off + i < endOff → buf.getD (off + i) 0 = l.getD i 0

/-- State fold of the property loop over a property list: the state after the
property callback has been invoked once per property, in order, with the
arguments the walker hands it. -/
def propsFold {σ : Type} (cb : Option (PropCb σ)) (depth : Nat) (s : σ) :
    List DTProp → σ
  | [] => s
  | pr :: rest =>
    propsFold cb depth
      (match cb with
       | none => s
       | some f => (f (depth + 1) pr.name pr.value pr.value.length s).1) rest

/-! ### Observer event traces -/

/-- One observer invocation, with the arguments the walker passed. -/
inductive DTEvent where
  | nodeEv (depth nodeOff size nProps nChildren : Nat)
  | propEv (depth : Nat) (name value : List Nat) (size : Nat)
  deriving DecidableEq

/-- Whether an event is a node-entry event. -/
def DTEvent.isNode : DTEvent → Bool
  | .nodeEv _ _ _ _ _ => true
  | .propEv _ _ _ _ => false

/-- Node observer that records its invocation and requests a stop according
to `stopN`. -/
def traceNodeCb (stopN : Nat → Nat → Nat → Nat → Nat → Bool) : NodeCb (List DTEvent) :=
  fun d o sz np nc s => (s ++ [.nodeEv d o sz np nc], stopN d o sz np nc)

/-- Property observer that records its invocation and requests a stop
according to `stopP`. -/
def tracePropCb (stopP : Nat → List Nat → List Nat → Nat → Bool) : PropCb (List DTEvent) :=
  fun d nm v sz s => (s ++ [.propEv d nm v sz], stopP d nm v sz)

/-- Whether the stop predicates fire on an event. -/
def firesEv (stopN : Nat → Nat → Nat → Nat → Nat → Bool)
    (stopP : Nat → List Nat → List Nat → Nat → Bool) : DTEvent → Bool
  | .nodeEv d o sz np nc => stopN d o sz np nc
  | .propEv d nm v sz => stopP d nm v sz

/-- Depth of the most recent node event of a trace fragment (`cur` is that
depth before the fragment, if any): the functional form of "the nearest
preceding node-observer invocation". -/
def lastNodeD : Option Nat → List DTEvent → Option Nat
  | cur, [] => cur
  | _, .nodeEv d _ _ _ _ :: rest => lastNodeD (some d) rest
  | cur, .propEv _ _ _ _ :: rest => lastNodeD cur rest

/-- Check that every property event of a trace fragment is reported at depth
exactly one greater than the depth of the nearest preceding node event (`cur`
is that depth before the fragment, if any; a property event with no preceding
node event fails the check). -/
def checkDepths : Option Nat → List DTEvent → Bool
  | _, [] => true
  | _, .nodeEv d _ _ _ _ :: rest => checkDepths (some d) rest
  | cur, .propEv d _ _ _ :: rest =>
    (match cur with
     | none => false
     | some dn => decide (d = dn + 1)) && checkDepths cur rest

/-! ## Theorems -/

/-- C6: the classifier applies its rules in the given fixed order, first match
wins: a 4-byte value whose property name begins with `'#'` (byte 35) is
classified `DISP_DEC_INT` (DecimalInteger), not `DISP_HEX_INT`, because the
name rule fires before the `size ∈ {4,8}` rule; values of size 1 or 2 are
classified `DISP_HEX_INT` (SmallHexInteger) regardless of the name. -/
theorem claim_C6_rule_order :
    (∀ (name data : List Nat), data.length = 4 → name.getD 0 0 = 35 →
      compute_display_type name data = .DISP_DEC_INT) ∧
    (∀ (name data : List Nat), data.length = 1 ∨ data.length = 2 →
      compute_display_type name data = .DISP_HEX_INT) := by
  constructor
  · intro name data h4 hname
    simp only [compute_display_type, h4, hname]
    norm_num
  · intro name data h
    simp only [compute_display_type]
    rw [if_pos h]

/-- Witness for C6 at concrete inputs: `"#size-cells"` with a 4-byte value is
decimal, and a 1-byte value is a small hex integer whatever the name. -/
theorem claim_C6_rule_order_witness :
    compute_display_type (strBytes "#size-cells") [1, 2, 3, 4] = .DISP_DEC_INT ∧
    compute_display_type (strBytes "#size-cells") [7] = .DISP_HEX_INT :=
  ⟨claim_C6_rule_order.1 _ _ (by decide) (by decide),
   claim_C6_rule_order.2 _ _ (Or.inl (by decide))⟩

/-- C7: when the size is a positive multiple of the 16-byte
`struct phys_range` record size and none of the earlier classifier rules
matched, the result is `DISP_PHYS_RANGES` (AddressRangeTable) exactly when the
name contains the substring `"reg"` or every (address, size) record passes
`check_phys_ranges`: address at most `0x980000000`, address aligned to the
`0xfff` page mask, and size field at most `0x80000000`. -/
theorem claim_C7_phys_ranges_rule (name data : List Nat)
    (hpos : 0 < data.length) (hmod : data.length % 16 = 0)
    (hname : name.getD 0 0 ≠ 35)
    (hseg : ¬(data.length % 32 = 0 ∧ name = strBytes "segment-ranges"))
    (hstr : ¬((measure_string data).printable = (measure_string data).first_null ∧
              (measure_string data).after_null = 0))
    (hfn : ¬(strBytes "function-" <+: name ∧ data.length % 4 = 0 ∧
             all_printable_ascii ((data.drop 4).take 4) = true))
    (hhex : ¬(3 * data.length ≤ 4 * (measure_string data).printable)) :
    compute_display_type name data = .DISP_PHYS_RANGES ↔
      (strBytes "reg" <:+: name ∨ check_phys_ranges data = true) := by
  simp only [compute_display_type]
  rw [if_neg (by omega)]
  rw [if_neg hname]
  rw [if_neg (by rintro ⟨-, h1, h2⟩; exact hseg ⟨h1, h2⟩)]
  rw [if_neg (by rintro ⟨hp, ha, -⟩; exact hstr ⟨hp, ha⟩)]
  rw [if_neg (by rintro ⟨hP, -, hR, hS⟩; exact hfn ⟨hP, hR, hS⟩)]
  rw [if_neg hhex]
  by_cases hr : strBytes "reg" <:+: name ∨ check_phys_ranges data = true
  · rw [if_pos ⟨hpos, hmod, hr⟩]
    exact iff_of_true rfl hr
  · rw [if_neg (by rintro ⟨-, -, h⟩; exact hr h)]
    refine iff_of_false ?_ hr
    intro h
    split_ifs at h

/-- Witness for C7: a 16-byte record `(phys = 0x1000, size = 1)` under the
name `"foo"` (no `"reg"`, no earlier rule fires) passes the plausibility check
and is classified as an address-range table. -/
theorem claim_C7_phys_ranges_rule_witness :
    compute_display_type (strBytes "foo")
      [0, 16, 0, 0, 0, 0, 0, 0, 1, 0, 0, 0, 0, 0, 0, 0] = .DISP_PHYS_RANGES :=
  (claim_C7_phys_ranges_rule _ _ (by decide) (by decide) (by decide) (by decide)
      (by decide) (by decide) (by decide)).mpr (Or.inr (by decide))

/-- C3: during property iteration the walker rejects a property exactly when
the 36-byte header does not fit, the last byte of the 32-byte name field is
not NUL, or the padded advance (payload size with flag bit 31 masked off,
rounded up to a multiple of 4) exceeds the buffer end — except that a property
whose unpadded payload end lands exactly on the buffer end is accepted without
its padding.  `propStep` is the per-property parse used by the walker's
property loop, which fails precisely by propagating `propStep = none`. -/
theorem claim_C3_property_failure_conditions (buf : List Nat) (endOff p : Nat) :
    propStep buf endOff p = none ↔ propFailureSpec buf endOff p := by
  simp only [propStep, propFailureSpec]
  split_ifs with h1 h2 h3 h4
  · exact iff_of_true rfl (Or.inl (by omega))
  · exact iff_of_true rfl (Or.inr (Or.inl h2))
  · refine iff_of_false (by simp) ?_
    push_neg
    exact ⟨by omega, by simpa using h2, fun _ => h4⟩
  · exact iff_of_true rfl (Or.inr (Or.inr ⟨by omega, h4⟩))
  · refine iff_of_false (by simp) ?_
    push_neg
    exact ⟨by omega, by simpa using h2, fun h => absurd h (by omega)⟩

/-- Helper: taking exactly the length of `takeWhile` recovers `takeWhile`. -/
theorem take_length_takeWhile {α : Type} (q : α → Bool) (l : List α) :
    l.take (l.takeWhile q).length = l.takeWhile q := by
  induction l with
  | nil => rfl
  | cons a l ih =>
    by_cases h : q a
    · simp [List.takeWhile_cons, h, ih]
    · simp [List.takeWhile_cons, h]

/-- Helper: the source's per-byte escaping equals the specification's
description of it. -/
theorem escByte_eq_escapeSpecByte (c : Nat) : escByte c = escapeSpecByte c := by
  unfold escByte escapeSpecByte
  by_cases h1 : c = 92 <;> by_cases h2 : c = 34 <;> by_cases h3 : c = 0 <;>
    simp_all [isprintB]

/-- C8: `print_property_string` renders exactly the NUL-terminated prefix of
the bytes through the escaping renderer, `print_property_function` (used for
FunctionDescriptor values) renders the full byte range through it, and the
escaping renderer wraps the value in double quotes and escapes each byte as
the spec describes: backslash and double quote backslash-escaped, NUL as
`\0`, other non-printable bytes as `\xHH`, printable bytes verbatim. -/
theorem claim_C8_escaping :
    (∀ data : List Nat, print_property_string data =
        print_property_hex_string (data.takeWhile (fun b => b ≠ 0))) ∧
    (∀ data : List Nat, print_property_function data = print_property_hex_string data) ∧
    (∀ data : List Nat, print_property_hex_string data =
        [34] ++ data.flatMap escapeSpecByte ++ [34]) := by
  refine ⟨fun data => ?_, fun _ => rfl, fun data => ?_⟩
  · unfold print_property_string strnlenAll
    rw [take_length_takeWhile]
  · unfold print_property_hex_string
    rw [show escByte = escapeSpecByte from funext escByte_eq_escapeSpecByte]

/-- Helper: with a nonzero capacity, the `size_t` decrement does not wrap. -/
theorem capSub1_eq (c : Nat) (h : c ≠ 0) : capSub1 c = c - 1 := by
  unfold capSub1
  rw [if_neg h]

/-- Helper: `strbuf_vprintf_no_grow` when the buffer is already full
(`pos >= cap - 1`): nothing is written; the position advances only on
success. -/
theorem vng_nowrite (sb : Strbuf) (t : List Nat) (h0 : sb.cap ≠ 0)
    (hf : sb.cap - 1 ≤ sb.pos) :
    strbuf_vprintf_no_grow sb t =
      (if sb.cap - 1 < sb.pos + t.length
       then (sb, false, sb.pos + t.length + 1)
       else ({ sb with pos := sb.pos + t.length }, true, 0)) := by
  simp only [strbuf_vprintf_no_grow, capSub1_eq _ h0]
  rw [if_pos (Or.inl hf), if_pos rfl]

/-- Helper: `strbuf_vprintf_no_grow` with room to write (`pos < cap - 1`):
the text truncated to the usable size is written at `pos`. -/
theorem vng_write (sb : Strbuf) (t : List Nat) (h0 : sb.cap ≠ 0)
    (hf : sb.pos < sb.cap - 1) :
    strbuf_vprintf_no_grow sb t =
      (if sb.cap - 1 < sb.pos + t.length
       then ({ sb with str := sb.str.take sb.pos ++ t.take (sb.cap - sb.pos - 1) },
             false, sb.pos + t.length + 1)
       else ({ sb with str := sb.str.take sb.pos ++ t.take (sb.cap - sb.pos - 1),
                       pos := sb.pos + t.length }, true, 0)) := by
  simp only [strbuf_vprintf_no_grow, capSub1_eq _ h0]
  rw [if_neg (show ¬(sb.cap - 1 ≤ sb.pos ∨ sb.cap = 0) from by omega)]
  rw [if_neg (show ¬(sb.cap - sb.pos = 0) from by omega)]

/-- Helper: single-call invariant for `strbuf_printf`.  `written` is the full
text handed to the sink so far; the stored string is always the prefix of it
that fits strictly below the capacity, the position tracks the unbounded
length, and the state is either still-fits (`pos + 1 <= cap`) or
overflowed-past-max. -/
theorem strbuf_printf_inv (sb : Strbuf) (t written : List Nat)
    (hc1 : 1 ≤ sb.cap) (hcm : sb.cap ≤ sb.max)
    (hpos : sb.pos = written.length)
    (hstr : sb.str = written.take (min sb.pos (sb.cap - 1)))
    (hstate : sb.pos + 1 ≤ sb.cap ∨ (sb.max ≤ sb.pos ∧ sb.cap ≤ sb.pos)) :
    (strbuf_printf sb t).1.max = sb.max ∧ 1 ≤ (strbuf_printf sb t).1.cap ∧
    (strbuf_printf sb t).1.cap ≤ sb.max ∧
    (strbuf_printf sb t).1.pos = (written ++ t).length ∧
    (strbuf_printf sb t).1.str =
      (written ++ t).take (min (strbuf_printf sb t).1.pos ((strbuf_printf sb t).1.cap - 1)) ∧
    ((strbuf_printf sb t).2 = true →
      (strbuf_printf sb t).1.pos + 1 ≤ (strbuf_printf sb t).1.cap) ∧
    ((strbuf_printf sb t).2 = false →
      sb.max ≤ (strbuf_printf sb t).1.pos ∧
      (strbuf_printf sb t).1.cap ≤ (strbuf_printf sb t).1.pos) := by
  have h0 : sb.cap ≠ 0 := by omega
  by_cases hfull : sb.cap - 1 ≤ sb.pos
  · have hmn : min sb.pos (sb.cap - 1) = sb.cap - 1 := by omega
    by_cases hov : sb.cap - 1 < sb.pos + t.length
    · by_cases hmx : sb.max < sb.pos + t.length + 1
      · have heq : strbuf_printf sb t =
            ({ sb with pos := sb.pos + t.length + 1 - 1 }, false) := by
          unfold strbuf_printf
          rw [vng_nowrite sb t h0 hfull]
          simp only [if_pos hov, if_pos hmx]
        rw [heq]
        refine ⟨rfl, hc1, hcm, ?_, ?_, ?_, ?_⟩
        · show sb.pos + t.length + 1 - 1 = (written ++ t).length
          rw [List.length_append]; omega
        · show sb.str = (written ++ t).take (min (sb.pos + t.length + 1 - 1) (sb.cap - 1))
          rw [hstr, hmn,
            show min (sb.pos + t.length + 1 - 1) (sb.cap - 1) = sb.cap - 1 from by omega,
            List.take_append_of_le_length (by omega)]
        · intro h; simp at h
        · intro _
          constructor
          · show sb.max ≤ sb.pos + t.length + 1 - 1
            omega
          · show sb.cap ≤ sb.pos + t.length + 1 - 1
            omega
      · have hgood : sb.pos + 1 ≤ sb.cap := by
          rcases hstate with h | h
          · exact h
          · omega
        have hpc : sb.pos = sb.cap - 1 := by omega
        have hlen : 1 ≤ t.length := by omega
        have hW : sb.str = written := by
          rw [hstr, hmn, ← hpc, hpos, List.take_length]
        have heq : strbuf_printf sb t =
            ({ sb with str := sb.str.take sb.pos ++ t.take (sb.pos + t.length + 1 - sb.pos - 1),
                       pos := sb.pos + t.length, cap := sb.pos + t.length + 1 }, true) := by
          unfold strbuf_printf
          rw [vng_nowrite sb t h0 hfull]
          simp only [if_pos hov, if_neg hmx]
          rw [vng_write _ t (by simp) (by simp; omega)]
          dsimp only
          rw [if_neg (show ¬(sb.pos + t.length + 1 - 1 < sb.pos + t.length) from by omega)]
        rw [heq]
        refine ⟨rfl, ?_, ?_, ?_, ?_, ?_, ?_⟩
        · show 1 ≤ sb.pos + t.length + 1
          omega
        · show sb.pos + t.length + 1 ≤ sb.max
          omega
        · show sb.pos + t.length = (written ++ t).length
          rw [List.length_append]; omega
        · show sb.str.take sb.pos ++ t.take (sb.pos + t.length + 1 - sb.pos - 1) =
            (written ++ t).take (min (sb.pos + t.length) (sb.pos + t.length + 1 - 1))
          rw [hW, hpos, List.take_length,
            show written.length + t.length + 1 - written.length - 1 = t.length from by omega,
            List.take_length,
            show min (written.length + t.length) (written.length + t.length + 1 - 1) =
              (written ++ t).length from by rw [List.length_append]; omega,
            List.take_length]
        · intro _
          show sb.pos + t.length + 1 ≤ sb.pos + t.length + 1
          omega
        · intro h; simp at h
    · have hlen0 : t = [] := List.length_eq_zero.mp (by omega)
      have heq : strbuf_printf sb t = ({ sb with pos := sb.pos + t.length }, true) := by
        unfold strbuf_printf
        rw [vng_nowrite sb t h0 hfull]
        simp only [if_neg hov]
      rw [heq]
      refine ⟨rfl, hc1, hcm, ?_, ?_, ?_, ?_⟩
      · show sb.pos + t.length = (written ++ t).length
        rw [List.length_append]; omega
      · show sb.str = (written ++ t).take (min (sb.pos + t.length) (sb.cap - 1))
        subst hlen0
        simpa using hstr
      · intro _
        show sb.pos + t.length + 1 ≤ sb.cap
        omega
      · intro h; simp at h
  · push_neg at hfull
    have hW : sb.str = written := by
      rw [hstr, show min sb.pos (sb.cap - 1) = sb.pos from by omega, hpos, List.take_length]
    have hWt : sb.str.take sb.pos = written := by
      rw [hW, hpos, List.take_length]
    by_cases hov : sb.cap - 1 < sb.pos + t.length
    · by_cases hmx : sb.max < sb.pos + t.length + 1
      · have heq : strbuf_printf sb t =
            ({ sb with str := sb.str.take sb.pos ++ t.take (sb.cap - sb.pos - 1),
                       pos := sb.pos + t.length + 1 - 1 }, false) := by
          unfold strbuf_printf
          rw [vng_write sb t h0 hfull]
          simp only [if_pos hov, if_pos hmx]
        rw [heq]
        refine ⟨rfl, hc1, hcm, ?_, ?_, ?_, ?_⟩
        · show sb.pos + t.length + 1 - 1 = (written ++ t).length
          rw [List.length_append]; omega
        · show sb.str.take sb.pos ++ t.take (sb.cap - sb.pos - 1) =
            (written ++ t).take (min (sb.pos + t.length + 1 - 1) (sb.cap - 1))
          rw [hWt,
            show min (sb.pos + t.length + 1 - 1) (sb.cap - 1) =
              written.length + (sb.cap - sb.pos - 1) from by omega,
            List.take_append]
        · intro h; simp at h
        · intro _
          constructor
          · show sb.max ≤ sb.pos + t.length + 1 - 1
            omega
          · show sb.cap ≤ sb.pos + t.length + 1 - 1
            omega
      · have hlen : 1 ≤ t.length := by omega
        have heq : strbuf_printf sb t =
            ({ sb with str := (sb.str.take sb.pos ++ t.take (sb.cap - sb.pos - 1)).take sb.pos ++
                         t.take (sb.pos + t.length + 1 - sb.pos - 1),
                       pos := sb.pos + t.length, cap := sb.pos + t.length + 1 }, true) := by
          unfold strbuf_printf
          rw [vng_write sb t h0 hfull]
          simp only [if_pos hov, if_neg hmx]
          rw [vng_write _ t (by simp) (by simp; omega)]
          dsimp only
          rw [if_neg (show ¬(sb.pos + t.length + 1 - 1 < sb.pos + t.length) from by omega)]
        rw [heq]
        refine ⟨rfl, ?_, ?_, ?_, ?_, ?_, ?_⟩
        · show 1 ≤ sb.pos + t.length + 1
          omega
        · show sb.pos + t.length + 1 ≤ sb.max
          omega
        · show sb.pos + t.length = (written ++ t).length
          rw [List.length_append]; omega
        · show (sb.str.take sb.pos ++ t.take (sb.cap - sb.pos - 1)).take sb.pos ++
              t.take (sb.pos + t.length + 1 - sb.pos - 1) =
            (written ++ t).take (min (sb.pos + t.length) (sb.pos + t.length + 1 - 1))
          rw [hWt]
          rw [List.take_append_of_le_length (by omega)]
          rw [hpos, List.take_length,
            show written.length + t.length + 1 - written.length - 1 = t.length from by omega,
            List.take_length,
            show min (written.length + t.length) (written.length + t.length + 1 - 1) =
              (written ++ t).length from by rw [List.length_append]; omega,
            List.take_length]
        · intro _
          show sb.pos + t.length + 1 ≤ sb.pos + t.length + 1
          omega
        · intro h; simp at h
    · have heq : strbuf_printf sb t =
          ({ sb with str := sb.str.take sb.pos ++ t.take (sb.cap - sb.pos - 1),
                     pos := sb.pos + t.length }, true) := by
        unfold strbuf_printf
        rw [vng_write sb t h0 hfull]
        simp only [if_neg hov]
      rw [heq]
      refine ⟨rfl, hc1, hcm, ?_, ?_, ?_, ?_⟩
      · show sb.pos + t.length = (written ++ t).length
        rw [List.length_append]; omega
      · show sb.str.take sb.pos ++ t.take (sb.cap - sb.pos - 1) =
          (written ++ t).take (min (sb.pos + t.length) (sb.cap - 1))
        rw [hWt, List.take_of_length_le (by omega),
          show min (sb.pos + t.length) (sb.cap - 1) = (written ++ t).length from by
            rw [List.length_append]; omega,
          List.take_length]
      · intro _
        show sb.pos + t.length + 1 ≤ sb.cap
        omega
      · intro h; simp at h

/-- Helper: a sink whose position has moved past both the capacity and the
maximum never writes again and keeps failing. -/
theorem strbuf_printf_after_max (sb : Strbuf) (t : List Nat)
    (h1 : 1 ≤ sb.cap) (h2 : sb.cap ≤ sb.pos) (h3 : sb.max ≤ sb.pos) :
    (strbuf_printf sb t).1.str = sb.str ∧ (strbuf_printf sb t).2 = false := by
  have h0 : sb.cap ≠ 0 := by omega
  have heq : strbuf_printf sb t = ({ sb with pos := sb.pos + t.length + 1 - 1 }, false) := by
    unfold strbuf_printf
    rw [vng_nowrite sb t h0 (by omega)]
    simp only [if_pos (show sb.cap - 1 < sb.pos + t.length from by omega),
      if_pos (show sb.max < sb.pos + t.length + 1 from by omega)]
  rw [heq]
  exact ⟨rfl, rfl⟩

/-- Helper: chained-emission invariant, by induction over the chunks using
`strbuf_printf_inv` for each call. -/
theorem strbuf_print_list_inv (chunks : List (List Nat)) :
    ∀ (sb : Strbuf) (written : List Nat),
      1 ≤ sb.cap → sb.cap ≤ sb.max → sb.pos = written.length → sb.str = written →
      sb.pos + 1 ≤ sb.cap →
      (strbuf_print_list sb chunks).1.max = sb.max ∧
      (strbuf_print_list sb chunks).1.str <+: written ++ chunks.flatten ∧
      ((strbuf_print_list sb chunks).2 = true →
        (strbuf_print_list sb chunks).1.str = written ++ chunks.flatten ∧
        (written ++ chunks.flatten).length + 1 ≤ (strbuf_print_list sb chunks).1.cap ∧
        (strbuf_print_list sb chunks).1.cap ≤ sb.max) := by
  induction chunks with
  | nil =>
    intro sb written hc1 hcm hpos hstr hgood
    simp only [strbuf_print_list, List.flatten_nil, List.append_nil]
    exact ⟨by trivial, hstr ▸ List.prefix_rfl, fun _ => ⟨hstr, by rw [← hpos]; omega, hcm⟩⟩
  | cons t ts ih =>
    intro sb written hc1 hcm hpos hstr hgood
    obtain ⟨hmax, hcap1, hcapm, hpos', hstr', htrue, hfalse⟩ :=
      strbuf_printf_inv sb t written hc1 hcm hpos
        (by rw [hstr, show min sb.pos (sb.cap - 1) = sb.pos from by omega, hpos,
              List.take_length])
        (Or.inl hgood)
    cases hfl : (strbuf_printf sb t).2 with
    | true =>
      have hres : strbuf_print_list sb (t :: ts) = strbuf_print_list (strbuf_printf sb t).1 ts := by
        simp only [strbuf_print_list]
        conv_lhs =>
          rw [show strbuf_printf sb t = ((strbuf_printf sb t).1, true) from by rw [← hfl]]
      have hgood1 := htrue hfl
      have hfit : min (strbuf_printf sb t).1.pos ((strbuf_printf sb t).1.cap - 1) =
          (strbuf_printf sb t).1.pos := by omega
      have hstr1 : (strbuf_printf sb t).1.str = written ++ t := by
        rw [hstr', hfit, hpos', List.take_length]
      obtain ⟨imax, ipre, itr⟩ := ih (strbuf_printf sb t).1 (written ++ t) (by omega)
        (by omega) hpos' hstr1 hgood1
      rw [hres]
      refine ⟨by rw [imax, hmax], ?_, fun hok => ?_⟩
      · rw [List.flatten_cons, ← List.append_assoc]
        exact ipre
      · obtain ⟨i1, i2, i3⟩ := itr hok
        refine ⟨?_, ?_, by omega⟩
        · rw [i1, List.flatten_cons, ← List.append_assoc]
        · rw [List.flatten_cons, ← List.append_assoc]
          exact i2
    | false =>
      have hres : strbuf_print_list sb (t :: ts) = ((strbuf_printf sb t).1, false) := by
        simp only [strbuf_print_list]
        conv_lhs =>
          rw [show strbuf_printf sb t = ((strbuf_printf sb t).1, false) from by rw [← hfl]]
      rw [hres]
      refine ⟨hmax, ?_, fun h => by simp at h⟩
      rw [hstr', List.flatten_cons, ← List.append_assoc]
      exact (List.take_prefix _ _).trans (List.prefix_append _ _)

/-- C9: formatting through the capacity-bounded sink.  For every chunk
sequence (the `strbuf_printf` calls of one value's rendering) on a fresh sink
with maximum `maxCap`: the sink's contents are always a prefix of the full
unbounded rendering; a complete (`true`) result stores exactly the full text;
if the full text does not fit below the maximum, the result reports
incomplete (`false`); and once the maximum has been overrun, a further write
changes nothing already written and keeps reporting incomplete. -/
theorem claim_C9_sink_truncation (maxCap : Nat) (hmax : 1 ≤ maxCap)
    (chunks : List (List Nat)) :
    (strbuf_print_list (strbuf_alloc maxCap) chunks).1.str <+: chunks.flatten ∧
    ((strbuf_print_list (strbuf_alloc maxCap) chunks).2 = true →
      (strbuf_print_list (strbuf_alloc maxCap) chunks).1.str = chunks.flatten) ∧
    (maxCap ≤ chunks.flatten.length →
      (strbuf_print_list (strbuf_alloc maxCap) chunks).2 = false) ∧
    (∀ (sb : Strbuf) (t : List Nat), 1 ≤ sb.cap → sb.cap ≤ sb.pos → sb.max ≤ sb.pos →
      (strbuf_printf sb t).1.str = sb.str ∧ (strbuf_printf sb t).2 = false) := by
  have halloc : (strbuf_alloc maxCap).cap = min 16384 maxCap := rfl
  obtain ⟨hm, hpre, htr⟩ := strbuf_print_list_inv chunks (strbuf_alloc maxCap) []
    (by rw [halloc]; omega) (by show min 16384 maxCap ≤ maxCap; omega) rfl rfl
    (by show 0 + 1 ≤ min 16384 maxCap; omega)
  refine ⟨by simpa using hpre, fun hok => by simpa using (htr hok).1, fun hlen => ?_,
    fun sb t h1 h2 h3 => strbuf_printf_after_max sb t h1 h2 h3⟩
  cases hfl : (strbuf_print_list (strbuf_alloc maxCap) chunks).2 with
  | false => rfl
  | true =>
    obtain ⟨-, h2, h3⟩ := htr hfl
    have : (strbuf_alloc maxCap).max = maxCap := rfl
    simp only [List.nil_append] at h2
    omega

/-- Witness for C9: two chunks of total length 5 into a sink with maximum 4
report incomplete with an unchanged valid prefix stored. -/
theorem claim_C9_sink_truncation_witness :
    (strbuf_print_list (strbuf_alloc 4) [[97, 98, 99], [100, 101]]).2 = false ∧
    (strbuf_print_list (strbuf_alloc 4) [[97, 98, 99], [100, 101]]).1.str <+:
      [97, 98, 99, 100, 101] :=
  ⟨(claim_C9_sink_truncation 4 (by decide) [[97, 98, 99], [100, 101]]).2.2.1 (by decide),
   (claim_C9_sink_truncation 4 (by decide) [[97, 98, 99], [100, 101]]).1⟩

/-! ### Basic facts about the encoding and buffer slices -/

/-- Helper: padding stays below 4 bytes. -/
theorem padLen_lt (n : Nat) : padLen n < 4 := by
  unfold padLen
  omega

/-- Helper: payload plus padding is the rounded-up size. -/
theorem padded_eq (n : Nat) : n + padLen n = (n + 3) / 4 * 4 := by
  unfold padLen
  omega

/-- Helper: length of one encoded property. -/
theorem encProp_length (pr : DTProp) (h : pr.name.length = 32) :
    (encProp pr).length = 36 + (pr.value.length + 3) / 4 * 4 := by
  simp [encProp, h, u32le]
  unfold padLen
  omega

/-- Helper: the encoding of a node spelled out. -/
theorem enc_eq (ps : List DTProp) (cs : List DTTree) :
    enc (.node ps cs) = u32le ps.length ++ u32le cs.length ++ encProps ps ++ encChildren cs := by
  rw [enc]

/-- Helper: every encoding starts with the 8-byte header. -/
theorem enc_length_ge (t : DTTree) : 8 ≤ (enc t).length := by
  cases t with
  | node ps cs =>
    rw [enc_eq]
    simp [u32le]

/-- Helper: a member's encoding is no longer than the encoded child list. -/
theorem mem_encChildren_le (c : DTTree) (cs : List DTTree) (h : c ∈ cs) :
    (enc c).length ≤ (encChildren cs).length := by
  induction cs with
  | nil => cases h
  | cons c' cs' ih =>
    rw [encChildren]
    rcases List.mem_cons.mp h with rfl | h'
    · simp
    · have := ih h'
      simp
      omega

/-- Helper: a buffer is a slice of itself at offset 0. -/
theorem sliceEq_refl (l : List Nat) : sliceEq l 0 l := by
  intro i _
  rw [Nat.zero_add]

/-- Helper: a slice of an appended list gives a slice of the left part. -/
theorem sliceEq_left {buf : List Nat} {off : Nat} {a b : List Nat}
    (h : sliceEq buf off (a ++ b)) : sliceEq buf off a := by
  intro i hi
  have := h i (by simp; omega)
  rwa [List.getD_append _ _ _ _ hi] at this

/-- Helper: a slice of an appended list gives a slice of the right part. -/
theorem sliceEq_right {buf : List Nat} {off : Nat} {a b : List Nat}
    (h : sliceEq buf off (a ++ b)) : sliceEq buf (off + a.length) b := by
  intro i hi
  have h2 := h (a.length + i) (by simp; omega)
  rw [List.getD_append_right _ _ _ _ (by omega)] at h2
  rw [show a.length + i - a.length = i from by omega] at h2
  rwa [show off + (a.length + i) = off + a.length + i from by omega] at h2

/-- Helper: a full slice below the cut is also a partial slice. -/
theorem sliceEqPartial_of_sliceEq {buf : List Nat} {off endOff : Nat} {l : List Nat}
    (h : sliceEq buf off l) : sliceEqPartial buf off l endOff :=
  fun i hi _ => h i hi

/-- Helper: a partial slice entirely below the cut is a full slice. -/
theorem sliceEq_of_partial {buf : List Nat} {off endOff : Nat} {l : List Nat}
    (h : sliceEqPartial buf off l endOff) (hcut : off + l.length ≤ endOff) :
    sliceEq buf off l :=
  fun i hi => h i hi (by omega)

/-- Helper: partial slice of the left part of an append. -/
theorem sliceEqPartial_left {buf : List Nat} {off endOff : Nat} {a b : List Nat}
    (h : sliceEqPartial buf off (a ++ b) endOff) : sliceEqPartial buf off a endOff := by
  intro i hi hcut
  have := h i (by simp; omega) hcut
  rwa [List.getD_append _ _ _ _ hi] at this

/-- Helper: partial slice of the right part of an append. -/
theorem sliceEqPartial_right {buf : List Nat} {off endOff : Nat} {a b : List Nat}
    (h : sliceEqPartial buf off (a ++ b) endOff) :
    sliceEqPartial buf (off + a.length) b endOff := by
  intro i hi hcut
  have h2 := h (a.length + i) (by simp; omega) (by omega)
  rw [List.getD_append_right _ _ _ _ (by omega)] at h2
  rw [show a.length + i - a.length = i from by omega] at h2
  rwa [show off + (a.length + i) = off + a.length + i from by omega] at h2

/-- Helper: a truncated buffer is a partial slice of the original. -/
theorem sliceEqPartial_take (l : List Nat) (n : Nat) :
    sliceEqPartial (l.take n) 0 l n := by
  intro i _ hcut
  rw [Nat.zero_add] at hcut ⊢
  rw [List.getD_eq_getElem?_getD, List.getD_eq_getElem?_getD,
    List.getElem?_take_of_lt hcut]

/-- Helper: reading a 32-bit field out of a slice. -/
theorem readU32_slice {buf : List Nat} {off n : Nat} {rest : List Nat}
    (h : sliceEq buf off (u32le n ++ rest)) (hn : n < 4294967296) :
    readU32 buf off = n := by
  have h0 := h 0 (by simp [u32le])
  have h1 := h 1 (by simp [u32le])
  have h2 := h 2 (by simp [u32le])
  have h3 := h 3 (by simp [u32le])
  simp only [u32le, List.cons_append, List.nil_append, List.getD_cons_zero,
    List.getD_cons_succ, Nat.add_zero] at h0 h1 h2 h3
  unfold readU32
  rw [h0, h1, h2, h3]
  omega

/-- Helper: extracting the actual sub-list from a slice. -/
theorem slice_extract {buf : List Nat} {off : Nat} {l : List Nat}
    (h : sliceEq buf off l) (hb : off + l.length ≤ buf.length) :
    (buf.drop off).take l.length = l := by
  apply List.ext_getElem
  · simp
    omega
  · intro i h1 h2
    have hi : i < l.length := by simpa using h2
    rw [List.getElem_take, List.getElem_drop]
    have hg := h i hi
    rw [List.getD_eq_getElem _ _ (by omega), List.getD_eq_getElem _ _ hi] at hg
    exact hg

/-- Helper: unpacking property validity. -/
theorem wfProp_facts {pr : DTProp} (h : wfProp pr = true) :
    pr.name.length = 32 ∧ pr.name.getD 31 0 = 0 ∧ pr.value.length < 2147483648 := by
  simp only [wfProp, Bool.and_eq_true, decide_eq_true_eq] at h
  exact ⟨h.1.1.1.1, h.1.1.1.2, h.1.2⟩

/-- Helper: unpacking node validity. -/
theorem wfTree_node {ps : List DTProp} {cs : List DTTree}
    (h : wfTree (.node ps cs) = true) :
    ps.length < 4294967296 ∧ cs.length < 4294967296 ∧
    (∀ pr ∈ ps, wfProp pr = true) ∧ wfChildren cs = true := by
  rw [wfTree] at h
  simp only [Bool.and_eq_true, decide_eq_true_eq, List.all_eq_true] at h
  exact ⟨h.1.1.1, h.1.1.2, h.1.2, h.2⟩

/-- Helper: each member of a valid child list is valid. -/
theorem wfChildren_mem {cs : List DTTree} (h : wfChildren cs = true) :
    ∀ c ∈ cs, wfTree c = true := by
  induction cs with
  | nil => intro c hc; cases hc
  | cons c' cs' ih =>
    rw [wfChildren] at h
    simp only [Bool.and_eq_true] at h
    intro c hc
    rcases List.mem_cons.mp hc with rfl | hc'
    · exact h.1
    · exact ih h.2 c hc'

/-- Helper: the encoded property re-associated into its four fields. -/
theorem encProp_assoc (pr : DTProp) :
    encProp pr = pr.name ++ (u32le pr.value.length ++
      (pr.value ++ List.replicate (padLen pr.value.length) 0)) := by
  simp [encProp, List.append_assoc]

/-- Helper: parsing one intact encoded property succeeds and advances by the
full padded extent. -/
theorem propStep_enc {buf : List Nat} {endOff p : Nat} {pr : DTProp} {rest : List Nat}
    (hwf : wfProp pr = true)
    (hs : sliceEq buf p (encProp pr ++ rest))
    (hfit : p + (encProp pr).length ≤ endOff) :
    propStep buf endOff p = some (pr.value.length, p + (encProp pr).length) := by
  obtain ⟨hn32, hn0, hv⟩ := wfProp_facts hwf
  have hlen := encProp_length pr hn32
  have hsl : sliceEq buf p (encProp pr) := sliceEq_left hs
  rw [encProp_assoc] at hsl
  have hname : sliceEq buf p pr.name := sliceEq_left hsl
  have hrest1 := sliceEq_right hsl
  rw [hn32] at hrest1
  have hsz : readU32 buf (p + 32) = pr.value.length :=
    readU32_slice hrest1 (by omega)
  have hck : buf.getD (p + 31) 0 = 0 := by
    have h31 := hname 31 (by omega)
    rw [h31]
    exact hn0
  simp only [propStep]
  rw [if_neg (by omega)]
  rw [if_neg (by rw [hck]; simp)]
  rw [hsz, Nat.mod_eq_of_lt hv]
  rw [if_neg (show ¬(p + 36 + (pr.value.length + 3) / 4 * 4 > endOff) from by omega)]
  exact congrArg some (by rw [hlen, Nat.add_assoc])

/-- Helper: the property loop over a list of intact encoded properties
invokes the callback once per property in order (never stopping) and ends
just past the padded extent of the list. -/
theorem propLoop_enc {σ : Type} (ps : List DTProp) :
    ∀ (buf : List Nat) (endOff : Nat) (cb : Option (PropCb σ)) (depth p : Nat) (s : σ),
    (∀ pr ∈ ps, wfProp pr = true) →
    sliceEq buf p (encProps ps) →
    p + (encProps ps).length ≤ endOff → endOff ≤ buf.length → NoStopP cb →
    propLoop buf endOff cb depth p ps.length s =
      (propsFold cb depth s ps, .ok (p + (encProps ps).length)) := by
  induction ps with
  | nil =>
    intro buf endOff cb depth p s _ _ _ _ _
    simp [propLoop, encProps, propsFold]
  | cons pr rest ih =>
    intro buf endOff cb depth p s hwf hs hfit hbuf hns
    have hwf1 : wfProp pr = true := hwf pr (List.mem_cons_self _ _)
    obtain ⟨hn32, hn0, hv⟩ := wfProp_facts hwf1
    rw [encProps] at hs hfit
    simp only [List.length_append] at hfit
    have hplen := encProp_length pr hn32
    have hstep : propStep buf endOff p = some (pr.value.length, p + (encProp pr).length) :=
      propStep_enc hwf1 hs (by omega)
    have hlen1 : p + (encProp pr).length + (encProps rest).length ≤ endOff := by omega
    have hrest : sliceEq buf (p + (encProp pr).length) (encProps rest) :=
      sliceEq_right hs
    have hname : (buf.drop p).take 32 = pr.name := by
      have h1 : sliceEq buf p pr.name := by
        rw [encProp_assoc, List.append_assoc] at hs
        exact sliceEq_left hs
      have := slice_extract h1 (by omega)
      rwa [hn32] at this
    have hvalue : (buf.drop (p + 36)).take pr.value.length = pr.value := by
      have h1 : sliceEq buf p (encProp pr) := sliceEq_left hs
      rw [encProp_assoc] at h1
      have h2 := sliceEq_right h1
      rw [hn32] at h2
      have h3 := sliceEq_right h2
      rw [show (u32le pr.value.length).length = 4 from rfl] at h3
      rw [show p + 32 + 4 = p + 36 from by omega] at h3
      have hval : sliceEq buf (p + 36) pr.value := sliceEq_left h3
      have hplen := encProp_length pr hn32
      exact slice_extract hval (by omega)
    show propLoop buf endOff cb depth p (rest.length + 1) s = _
    rw [propLoop, hstep]
    cases cb with
    | none =>
      show propLoop buf endOff none depth (p + (encProp pr).length) rest.length s = _
      rw [ih buf endOff none depth (p + (encProp pr).length) s
        (fun q hq => hwf q (List.mem_cons_of_mem _ hq)) hrest (by omega) hbuf hns]
      refine congrArg _ (congrArg _ ?_)
      simp [encProps]
      omega
    | some f =>
      show (match f (depth + 1) ((buf.drop p).take 32) ((buf.drop (p + 36)).take pr.value.length)
              pr.value.length s with
            | (s', true) => (s', PropLoopResult.stopped)
            | (s', false) =>
              propLoop buf endOff (some f) depth (p + (encProp pr).length) rest.length s') = _
      rw [hname, hvalue]
      have hflag := hns f rfl (depth + 1) pr.name pr.value pr.value.length s
      cases hcall : f (depth + 1) pr.name pr.value pr.value.length s with
      | mk s' flag =>
        rw [hcall] at hflag
        subst hflag
        show propLoop buf endOff (some f) depth (p + (encProp pr).length) rest.length s' = _
        rw [ih buf endOff (some f) depth (p + (encProp pr).length) s'
          (fun q hq => hwf q (List.mem_cons_of_mem _ hq)) hrest (by omega) hbuf hns]
        have hfold : propsFold (some f) depth s (pr :: rest) = propsFold (some f) depth s' rest := by
          rw [propsFold, hcall]
        rw [hfold]
        refine congrArg _ (congrArg _ ?_)
        simp [encProps]
        omega

/-- Helper: the encoded length of a node split into header, properties and
children. -/
theorem enc_length_split (ps : List DTProp) (cs : List DTTree) :
    (enc (DTTree.node ps cs)).length =
      8 + (encProps ps).length + (encChildren cs).length := by
  rw [enc_eq]
  simp [u32le]
  omega

/-- Helper: the walker parses an intact encoded subtree to completion,
consuming exactly its bytes, with non-stopping observers.  The `fuel`
hypothesis is satisfied by `devicetree_iterate`'s choice because every
recursion level consumes at least a header. -/
theorem iterNode_enc (N : Nat) :
    ∀ (t : DTTree), (enc t).length ≤ N → wfTree t = true →
    ∀ {σ : Type} (buf : List Nat) (endOff : Nat) (nodeCb : Option (NodeCb σ))
      (propCb : Option (PropCb σ)) (fuel off depth : Nat) (s : σ),
    sliceEq buf off (enc t) → off + (enc t).length ≤ endOff → endOff ≤ buf.length →
    endOff - off < fuel → NoStopN nodeCb → NoStopP propCb →
    ∃ s', iterNode buf endOff nodeCb propCb fuel off depth s =
      (s', .done (off + (enc t).length)) := by
  induction N with
  | zero =>
    intro t hN
    have := enc_length_ge t
    omega
  | succ n ihN =>
    intro t hN hwf σ buf endOff nodeCb propCb fuel off depth s hs hfit hbuf hfuel hnN hnP
    cases t with
    | node ps cs =>
      obtain ⟨hpc, hcc, hpwf, hcwf⟩ := wfTree_node hwf
      have hlen := enc_length_split ps cs
      have h8 : 8 ≤ (enc (DTTree.node ps cs)).length := enc_length_ge _
      have hs' : sliceEq buf off (u32le ps.length ++ (u32le cs.length ++
          (encProps ps ++ encChildren cs))) := by
        rw [enc_eq] at hs
        rwa [List.append_assoc, List.append_assoc] at hs
      have hr1 : readU32 buf off = ps.length := readU32_slice hs' hpc
      have hs2 := sliceEq_right hs'
      rw [show (u32le ps.length).length = 4 from rfl] at hs2
      have hr2 : readU32 buf (off + 4) = cs.length := readU32_slice hs2 hcc
      have hs3 := sliceEq_right hs2
      rw [show (u32le cs.length).length = 4 from rfl] at hs3
      rw [show off + 4 + 4 = off + 8 from by omega] at hs3
      have hsp : sliceEq buf (off + 8) (encProps ps) := sliceEq_left hs3
      have hsc : sliceEq buf (off + 8 + (encProps ps).length) (encChildren cs) :=
        sliceEq_right hs3
      cases fuel with
      | zero => omega
      | succ f =>
        have hchild : ∀ (cs' : List DTTree), (∀ c ∈ cs', c ∈ cs) → ∀ (dv : Nat) (s2 : σ),
            sliceEq buf dv (encChildren cs') → dv + (encChildren cs').length ≤ endOff →
            off + 8 ≤ dv →
            ∃ s3, childLoop (fun dv2 s4 => iterNode buf endOff nodeCb propCb f dv2 (depth + 1) s4)
                dv cs'.length s2 = (s3, .done (dv + (encChildren cs').length)) := by
          intro cs'
          induction cs' with
          | nil =>
            intro _ dv s2 _ _ _
            exact ⟨s2, by simp [childLoop, encChildren]⟩
          | cons c cs'' ihc =>
            intro hmem dv s2 hsl hfl hdv
            have hcmem : c ∈ cs := hmem c (List.mem_cons_self _ _)
            rw [encChildren] at hsl hfl
            simp only [List.length_append] at hfl
            have hcn : (enc c).length ≤ n := by
              have h1 := mem_encChildren_le c cs hcmem
              omega
            obtain ⟨s3, hc3⟩ := ihN c hcn (wfChildren_mem hcwf c hcmem) buf endOff nodeCb
              propCb f dv (depth + 1) s2 (sliceEq_left hsl) (by omega) hbuf (by omega) hnN hnP
            obtain ⟨s4, hc4⟩ := ihc (fun q hq => hmem q (List.mem_cons_of_mem _ hq))
              (dv + (enc c).length) s3 (sliceEq_right hsl) (by omega) (by omega)
            refine ⟨s4, ?_⟩
            show childLoop _ dv (cs''.length + 1) s2 = _
            rw [childLoop]
            try simp only []
            rw [hc3]
            try simp only []
            rw [hc4, encChildren, List.length_append, ← Nat.add_assoc]
        cases hnode : nodeCb with
        | none =>
          subst hnode
          simp only [iterNode]
          rw [if_neg (show ¬(off + 8 > endOff) from by omega)]
          rw [hr1, hr2]
          try simp only []
          rw [propLoop_enc ps buf endOff propCb depth (off + 8) s hpwf hsp (by omega) hbuf hnP]
          try simp only []
          obtain ⟨s3, hcl⟩ := hchild cs (fun c hc => hc) (off + 8 + (encProps ps).length)
            (propsFold propCb depth s ps) hsc (by omega) (by omega)
          refine ⟨s3, ?_⟩
          rw [hcl, hlen]
          exact congrArg _ (congrArg _ (by omega))
        | some fcb =>
          subst hnode
          have hflag := hnN fcb rfl depth off (endOff - off) ps.length cs.length s
          simp only [iterNode]
          rw [if_neg (show ¬(off + 8 > endOff) from by omega)]
          rw [hr1, hr2]
          try simp only []
          cases hcall : fcb depth off (endOff - off) ps.length cs.length s with
          | mk s1 flag =>
            rw [hcall] at hflag
            have hflag2 : flag = false := hflag
            subst hflag2
            try simp only []
            rw [propLoop_enc ps buf endOff propCb depth (off + 8) s1 hpwf hsp (by omega) hbuf hnP]
            try simp only []
            obtain ⟨s3, hcl⟩ := hchild cs (fun c hc => hc) (off + 8 + (encProps ps).length)
              (propsFold propCb depth s1 ps) hsc (by omega) (by omega)
            refine ⟨s3, ?_⟩
            rw [hcl, hlen]
            exact congrArg _ (congrArg _ (by omega))

/-- C1: on any buffer that is the encoding of a structurally valid tree (node
header, properties padded to 4 bytes, children's complete subtrees in order),
`devicetree_iterate` with observers that never request a stop returns true
(`done`, never `fail`) with the data cursor exactly at buffer start + size:
the whole buffer is consumed. -/
theorem claim_C1_full_consumption (t : DTTree) {σ : Type} (nodeCb : Option (NodeCb σ))
    (propCb : Option (PropCb σ)) (s : σ)
    (hwf : wfTree t = true) (hN : NoStopN nodeCb) (hP : NoStopP propCb) :
    (devicetree_iterate (enc t) nodeCb propCb s).2 = .done (enc t).length := by
  obtain ⟨s', h⟩ := iterNode_enc (enc t).length t le_rfl hwf (enc t) (enc t).length nodeCb
    propCb ((enc t).length + 1) 0 0 s (sliceEq_refl _) (by omega) le_rfl (by omega) hN hP
  unfold devicetree_iterate
  rw [h]
  simp

/-- Witness for C1: a concrete one-node tree with one 1-byte property (name
field `"n"` padded to 32 bytes) encodes to 48 bytes and is consumed in
full. -/
theorem claim_C1_full_consumption_witness :
    (devicetree_iterate (σ := Unit) (enc (DTTree.node [⟨110 :: List.replicate 31 0, [170]⟩] []))
      none none ()).2 = .done 48 := by
  rw [claim_C1_full_consumption _ none none () (by decide)
    (fun f h => Option.noConfusion h) (fun f h => Option.noConfusion h)]
  decide

/-- Helper: the tracing property observer records exactly one event per
property, in order. -/
theorem propsFold_trace (stopP : Nat → List Nat → List Nat → Nat → Bool) (depth : Nat)
    (ps : List DTProp) :
    ∀ (s0 : List DTEvent),
    propsFold (some (tracePropCb stopP)) depth s0 ps =
      s0 ++ ps.map (fun pr => .propEv (depth + 1) pr.name pr.value pr.value.length) := by
  induction ps with
  | nil =>
    intro s0
    simp [propsFold]
  | cons pr rest ih =>
    intro s0
    rw [propsFold]
    simp only [tracePropCb]
    rw [ih]
    simp

/-- Helper: entering any node at nonzero depth under the
`do_not_scan_children` observer stops immediately, leaving `*data` at the
node's start. -/
theorem iterNode_scan_stop (buf : List Nat) (endOff : Nat)
    (cb : Option (PropCb (List DTEvent))) (fuel off : Nat) (s : List DTEvent)
    (hfuel : 0 < fuel) (hfit : off + 8 ≤ endOff) :
    iterNode buf endOff
      (some fun depth _ _ _ _ st => (st, decide (depth ≠ 0))) cb fuel off 1 s =
      (s, .stopped off) := by
  cases fuel with
  | zero => omega
  | succ f =>
    simp only [iterNode]
    rw [if_neg (by omega)]
    rfl

/-- C5: `devicetree_node_scan_properties` on a well-formed node buffer (the
node's encoded subtree followed by any trailing bytes, as the driver passes
the remaining buffer) invokes the property callback exactly on the direct
properties of that node, in order — never on a property of one of its
children — and returns true.  The traversal stops itself via the
`do_not_scan_children` node observer at the first child (depth 1). -/
theorem claim_C5_scan (t : DTTree) (rest : List Nat) (hwf : wfTree t = true) :
    (devicetree_node_scan_properties (enc t ++ rest)
        (some (tracePropCb (fun _ _ _ _ => false))) []).1 =
      t.props.map (fun pr => .propEv 1 pr.name pr.value pr.value.length) ∧
    ((devicetree_node_scan_properties (enc t ++ rest)
        (some (tracePropCb (fun _ _ _ _ => false))) []).2).ok = true := by
  cases t with
  | node ps cs =>
    obtain ⟨hpc, hcc, hpwf, hcwf⟩ := wfTree_node hwf
    have hlen := enc_length_split ps cs
    have h8 : 8 ≤ (enc (DTTree.node ps cs)).length := enc_length_ge _
    have hs : sliceEq (enc (DTTree.node ps cs) ++ rest) 0 (enc (DTTree.node ps cs)) :=
      fun i hi => by rw [Nat.zero_add, List.getD_append _ _ _ _ hi]
    have hBL : (enc (DTTree.node ps cs) ++ rest).length =
        (enc (DTTree.node ps cs)).length + rest.length := List.length_append _ _
    have hnp : NoStopP (σ := List DTEvent) (some (tracePropCb fun _ _ _ _ => false)) := by
      intro f hf d nm v sz st
      cases hf
      rfl
    have hs' : sliceEq (enc (DTTree.node ps cs) ++ rest) 0 (u32le ps.length ++ (u32le cs.length ++
        (encProps ps ++ encChildren cs))) := by
      have h0 := hs
      rw [enc_eq] at h0
      rwa [List.append_assoc, List.append_assoc] at h0
    have hr1 : readU32 (enc (DTTree.node ps cs) ++ rest) 0 = ps.length := readU32_slice hs' hpc
    have hs2 := sliceEq_right hs'
    rw [show (u32le ps.length).length = 4 from rfl, Nat.zero_add] at hs2
    have hr2 : readU32 (enc (DTTree.node ps cs) ++ rest) 4 = cs.length := readU32_slice hs2 hcc
    have hs3 := sliceEq_right hs2
    rw [show (u32le cs.length).length = 4 from rfl] at hs3
    rw [show (4 : Nat) + 4 = 8 from rfl] at hs3
    have hsp : sliceEq (enc (DTTree.node ps cs) ++ rest) 8 (encProps ps) := sliceEq_left hs3
    have hPL :
        propLoop (enc (DTTree.node ps cs) ++ rest) (enc (DTTree.node ps cs) ++ rest).length
          (some (tracePropCb fun _ _ _ _ => false)) 0 8 ps.length [] =
        (propsFold (some (tracePropCb fun _ _ _ _ => false)) 0 [] ps,
          .ok (8 + (encProps ps).length)) :=
      propLoop_enc ps _ _ _ 0 8 [] hpwf hsp (by omega) (by omega) hnp
    rw [propsFold_trace, List.nil_append] at hPL
    unfold devicetree_node_scan_properties devicetree_iterate
    rw [iterNode]
    rw [if_neg (show ¬(0 + 8 > (enc (DTTree.node ps cs) ++ rest).length) from by omega)]
    rw [show (0 : Nat) + 4 = 4 from rfl]
    rw [hr1, hr2]
    simp only []
    rw [show decide ((0 : Nat) ≠ 0) = false from rfl]
    simp only [Nat.zero_add] at hPL ⊢
    rw [hPL]
    simp only []
    cases cs with
    | nil =>
      simp only [List.length_nil, childLoop]
      exact ⟨rfl, rfl⟩
    | cons c cs' =>
      have hq8 : 8 + (encProps ps).length + 8 ≤
          (enc (DTTree.node ps (c :: cs')) ++ rest).length := by
        have hc8 := enc_length_ge c
        have hcc8 : (enc c).length ≤ (encChildren (c :: cs')).length := by
          rw [encChildren]
          simp
        omega
      simp only [List.length_cons, childLoop]
      rw [iterNode_scan_stop _ _ _ _ _ _ (by omega) (by omega)]
      exact ⟨rfl, rfl⟩

/-- Witness for C5: a node with one property and one child that itself has a
property; the scan reports only the parent's property. -/
theorem claim_C5_scan_witness :
    (devicetree_node_scan_properties
        (enc (DTTree.node [⟨110 :: List.replicate 31 0, [1]⟩]
              [DTTree.node [⟨109 :: List.replicate 31 0, [2, 3]⟩] []]) ++ [])
        (some (tracePropCb (fun _ _ _ _ => false))) []).1 =
      [DTEvent.propEv 1 (110 :: List.replicate 31 0) [1] 1] := by
  rw [(claim_C5_scan (DTTree.node [⟨110 :: List.replicate 31 0, [1]⟩]
        [DTTree.node [⟨109 :: List.replicate 31 0, [2, 3]⟩] []]) [] (by decide)).1]
  rfl

/-- Shape of the state delta recorded by `propLoop` under a tracing property
observer: all recorded events are property events at `depth + 1`; on a stop the
delta ends with an event on which the stop predicate fires and no earlier event
fires; otherwise no recorded event fires. -/
theorem propLoop_trace_stop (buf : List Nat) (endOff depth : Nat)
    (stopN : Nat → Nat → Nat → Nat → Nat → Bool)
    (stopP : Nat → List Nat → List Nat → Nat → Bool) :
    ∀ n p s0, ∃ delta r,
      propLoop buf endOff (some (tracePropCb stopP)) depth p n s0 = (s0 ++ delta, r) ∧
      (∀ e ∈ delta, ∃ nm v sz, e = DTEvent.propEv (depth + 1) nm v sz) ∧
      (r = PropLoopResult.stopped →
        ∃ pre e, delta = pre ++ [e] ∧ firesEv stopN stopP e = true ∧
          ∀ x ∈ pre, firesEv stopN stopP x = false) ∧
      (r ≠ PropLoopResult.stopped → ∀ e ∈ delta, firesEv stopN stopP e = false) := by
  intro n
  induction n with
  | zero =>
    intro p s0
    exact ⟨[], .ok p, by simp [propLoop], by simp, by simp, by simp⟩
  | succ n ih =>
    intro p s0
    cases hps : propStep buf endOff p with
    | none =>
      refine ⟨[], .fail, ?_, by simp, by simp, by simp⟩
      simp [propLoop, hps]
    | some pr =>
      obtain ⟨psz, pNext⟩ := pr
      cases hfl : stopP (depth + 1) ((buf.drop p).take 32) ((buf.drop (p + 36)).take psz) psz with
      | true =>
        refine ⟨[DTEvent.propEv (depth + 1) ((buf.drop p).take 32)
            ((buf.drop (p + 36)).take psz) psz], .stopped, ?_, ?_, ?_, by simp⟩
        · simp only [propLoop]
          rw [hps]
          simp only [tracePropCb]
          rw [hfl]
        · intro x hx
          simp only [List.mem_singleton] at hx
          subst hx
          exact ⟨_, _, _, rfl⟩
        · intro _
          exact ⟨[], DTEvent.propEv (depth + 1) ((buf.drop p).take 32)
            ((buf.drop (p + 36)).take psz) psz, by simp, hfl, by simp⟩
      | false =>
        obtain ⟨delta, r, heq, hprops, hstop, hns⟩ :=
          ih pNext (s0 ++ [DTEvent.propEv (depth + 1) ((buf.drop p).take 32)
            ((buf.drop (p + 36)).take psz) psz])
        refine ⟨DTEvent.propEv (depth + 1) ((buf.drop p).take 32)
            ((buf.drop (p + 36)).take psz) psz :: delta, r, ?_, ?_, ?_, ?_⟩
        · simp only [propLoop]
          rw [hps]
          simp only [tracePropCb]
          rw [hfl]
          simp only []
          rw [heq]
          simp
        · intro x hx
          rcases List.mem_cons.mp hx with h | h
          · subst h; exact ⟨_, _, _, rfl⟩
          · exact hprops x h
        · intro hr
          obtain ⟨pre, e, hd, hf, hpre⟩ := hstop hr
          refine ⟨DTEvent.propEv (depth + 1) ((buf.drop p).take 32)
              ((buf.drop (p + 36)).take psz) psz :: pre, e, by rw [hd, List.cons_append], hf, ?_⟩
          intro x hx
          rcases List.mem_cons.mp hx with h | h
          · subst h; exact hfl
          · exact hpre x h
        · intro hr x hx
          rcases List.mem_cons.mp hx with h | h
          · subst h; exact hfl
          · exact hns hr x h

/-- Stop/no-stop shape of the `childLoop` recursion under tracing observers,
abstracted over the child parser: if each child run appends a delta that either
ends in a unique firing event (on a stop) or contains no firing event, then so
does the whole loop. -/
theorem childLoop_trace_stop
    (stopN : Nat → Nat → Nat → Nat → Nat → Bool)
    (stopP : Nat → List Nat → List Nat → Nat → Bool)
    (child : Nat → List DTEvent → List DTEvent × IterResult)
    (hchild : ∀ dv s0, ∃ delta r, child dv s0 = (s0 ++ delta, r) ∧
      ((∃ x, r = IterResult.stopped x) →
        ∃ pre e, delta = pre ++ [e] ∧ firesEv stopN stopP e = true ∧
          ∀ y ∈ pre, firesEv stopN stopP y = false) ∧
      ((∀ x, r ≠ IterResult.stopped x) → ∀ e ∈ delta, firesEv stopN stopP e = false)) :
    ∀ n dv s0, ∃ delta r, childLoop child dv n s0 = (s0 ++ delta, r) ∧
      ((∃ x, r = IterResult.stopped x) →
        ∃ pre e, delta = pre ++ [e] ∧ firesEv stopN stopP e = true ∧
          ∀ y ∈ pre, firesEv stopN stopP y = false) ∧
      ((∀ x, r ≠ IterResult.stopped x) → ∀ e ∈ delta, firesEv stopN stopP e = false) := by
  intro n
  induction n with
  | zero =>
    intro dv s0
    exact ⟨[], .done dv, by simp [childLoop], by simp, by simp⟩
  | succ n ih =>
    intro dv s0
    obtain ⟨d1, r1, he1, hs1, hn1⟩ := hchild dv s0
    cases r1 with
    | fail =>
      refine ⟨d1, .fail, ?_, by simp, ?_⟩
      · simp only [childLoop]
        rw [he1]
      · intro _ e he
        exact hn1 (by intro x h; exact IterResult.noConfusion h) e he
    | stopped dv2 =>
      refine ⟨d1, .stopped dv2, ?_, ?_, ?_⟩
      · simp only [childLoop]
        rw [he1]
      · intro _
        exact hs1 ⟨dv2, rfl⟩
      · intro hr
        exact absurd rfl (hr dv2)
    | done dv2 =>
      obtain ⟨d2, r, he2, hs2, hn2⟩ := ih dv2 (s0 ++ d1)
      have hd1ns : ∀ e ∈ d1, firesEv stopN stopP e = false :=
        hn1 (by intro x h; exact IterResult.noConfusion h)
      refine ⟨d1 ++ d2, r, ?_, ?_, ?_⟩
      · simp only [childLoop]
        rw [he1]
        simp only []
        rw [he2]
        simp
      · intro hr
        obtain ⟨pre, e, hd, hf, hpre⟩ := hs2 hr
        refine ⟨d1 ++ pre, e, by rw [hd, List.append_assoc], hf, ?_⟩
        intro y hy
        rcases List.mem_append.mp hy with h | h
        · exact hd1ns y h
        · exact hpre y h
      · intro hr e he
        rcases List.mem_append.mp he with h | h
        · exact hd1ns e h
        · exact hn2 hr e h

/-- Stop/no-stop shape of a full `iterNode` run under tracing observers: the
recorded delta either ends with the unique event on which a stop predicate
fired (when the result is a stop) or contains no firing event at all. -/
theorem iterNode_trace_stop (buf : List Nat) (endOff : Nat)
    (stopN : Nat → Nat → Nat → Nat → Nat → Bool)
    (stopP : Nat → List Nat → List Nat → Nat → Bool) :
    ∀ fuel off depth s0, ∃ delta r,
      iterNode buf endOff (some (traceNodeCb stopN)) (some (tracePropCb stopP))
        fuel off depth s0 = (s0 ++ delta, r) ∧
      ((∃ x, r = IterResult.stopped x) →
        ∃ pre e, delta = pre ++ [e] ∧ firesEv stopN stopP e = true ∧
          ∀ y ∈ pre, firesEv stopN stopP y = false) ∧
      ((∀ x, r ≠ IterResult.stopped x) → ∀ e ∈ delta, firesEv stopN stopP e = false) := by
  intro fuel
  induction fuel with
  | zero =>
    intro off depth s0
    exact ⟨[], .fail, by simp [iterNode], by simp, by simp⟩
  | succ fuel ih =>
    intro off depth s0
    by_cases hhd : off + 8 > endOff
    · refine ⟨[], .fail, ?_, by simp, by simp⟩
      rw [iterNode, if_pos hhd]
      simp
    · cases hb : stopN depth off (endOff - off) (readU32 buf off) (readU32 buf (off + 4)) with
      | true =>
        refine ⟨[DTEvent.nodeEv depth off (endOff - off) (readU32 buf off)
            (readU32 buf (off + 4))], .stopped off, ?_, ?_, ?_⟩
        · rw [iterNode, if_neg hhd]
          simp only [traceNodeCb]
          rw [hb]
        · intro _
          exact ⟨[], DTEvent.nodeEv depth off (endOff - off) (readU32 buf off)
            (readU32 buf (off + 4)), by simp, hb, by simp⟩
        · intro hr
          exact absurd rfl (hr off)
      | false =>
        obtain ⟨d1, rp, he1, hprops1, hs1, hn1⟩ :=
          propLoop_trace_stop buf endOff depth stopN stopP (readU32 buf off) (off + 8)
            (s0 ++ [DTEvent.nodeEv depth off (endOff - off) (readU32 buf off)
              (readU32 buf (off + 4))])
        cases rp with
        | fail =>
          refine ⟨DTEvent.nodeEv depth off (endOff - off) (readU32 buf off)
              (readU32 buf (off + 4)) :: d1, .fail, ?_, by simp, ?_⟩
          · rw [iterNode, if_neg hhd]
            simp only [traceNodeCb]
            rw [hb]
            simp only []
            rw [he1]
            simp
          · intro _ e he
            rcases List.mem_cons.mp he with h | h
            · subst h; exact hb
            · exact hn1 (by intro h; exact PropLoopResult.noConfusion h) e h
        | stopped =>
          obtain ⟨pre, e, hd, hf, hpre⟩ := hs1 rfl
          refine ⟨DTEvent.nodeEv depth off (endOff - off) (readU32 buf off)
              (readU32 buf (off + 4)) :: d1, .stopped off, ?_, ?_, ?_⟩
          · rw [iterNode, if_neg hhd]
            simp only [traceNodeCb]
            rw [hb]
            simp only []
            rw [he1]
            simp
          · intro _
            refine ⟨DTEvent.nodeEv depth off (endOff - off) (readU32 buf off)
                (readU32 buf (off + 4)) :: pre, e, by rw [hd, List.cons_append], hf, ?_⟩
            intro y hy
            rcases List.mem_cons.mp hy with h | h
            · subst h; exact hb
            · exact hpre y h
          · intro hr
            exact absurd rfl (hr off)
        | ok p =>
          obtain ⟨d2, r2, he2, hs2, hn2⟩ :=
            childLoop_trace_stop stopN stopP
              (fun dv s' => iterNode buf endOff (some (traceNodeCb stopN))
                (some (tracePropCb stopP)) fuel dv (depth + 1) s')
              (fun dv s' => ih dv (depth + 1) s')
              (readU32 buf (off + 4)) p
              (s0 ++ [DTEvent.nodeEv depth off (endOff - off) (readU32 buf off)
                (readU32 buf (off + 4))] ++ d1)
          have hd1ns : ∀ e ∈ d1, firesEv stopN stopP e = false :=
            hn1 (by intro h; exact PropLoopResult.noConfusion h)
          refine ⟨DTEvent.nodeEv depth off (endOff - off) (readU32 buf off)
              (readU32 buf (off + 4)) :: (d1 ++ d2), r2, ?_, ?_, ?_⟩
          · rw [iterNode, if_neg hhd]
            simp only [traceNodeCb]
            rw [hb]
            simp only []
            rw [he1]
            simp only []
            rw [he2]
            simp
          · intro hr
            obtain ⟨pre2, e, hd, hf, hpre2⟩ := hs2 hr
            refine ⟨DTEvent.nodeEv depth off (endOff - off) (readU32 buf off)
                (readU32 buf (off + 4)) :: (d1 ++ pre2), e, ?_, hf, ?_⟩
            · simp [hd]
            · intro y hy
              rcases List.mem_cons.mp hy with h | h
              · subst h; exact hb
              · rcases List.mem_append.mp h with h2 | h2
                · exact hd1ns y h2
                · exact hpre2 y h2
          · intro hr e he
            rcases List.mem_cons.mp he with h | h
            · subst h; exact hb
            · rcases List.mem_append.mp h with h2 | h2
              · exact hd1ns e h2
              · exact hn2 hr e h2

/-- C4: observer stop semantics.  Run `devicetree_iterate` with tracing
observers driven by arbitrary stop predicates.  Then (i) no event before the
last recorded one fires a stop predicate, so once a stop is requested no
further property or child of the current node is visited and every active
recursion frame unwinds without invoking another observer; (ii) when the
traversal ends in a stop it is reported as a success (`ok = true`, stop is not
a failure) and the stop predicate fired on the last recorded event; and (iii)
conversely, if a stop predicate fired on any visited event the traversal ends
in a stop. -/
theorem claim_C4_stop_semantics (buf : List Nat)
    (stopN : Nat → Nat → Nat → Nat → Nat → Bool)
    (stopP : Nat → List Nat → List Nat → Nat → Bool)
    (tr : List DTEvent) (r : IterResult)
    (hrun : devicetree_iterate buf (some (traceNodeCb stopN))
      (some (tracePropCb stopP)) [] = (tr, r)) :
    (∀ e ∈ tr.dropLast, firesEv stopN stopP e = false) ∧
    ((∃ x, r = IterResult.stopped x) → r.ok = true ∧
      ∃ e, tr.getLast? = some e ∧ firesEv stopN stopP e = true) ∧
    ((∃ e ∈ tr, firesEv stopN stopP e = true) → ∃ x, r = IterResult.stopped x) := by
  obtain ⟨delta, r', he, hs, hn⟩ := iterNode_trace_stop buf buf.length stopN stopP
    (buf.length + 1) 0 0 []
  rw [devicetree_iterate, he] at hrun
  have htr : tr = delta := by
    have := congrArg Prod.fst hrun.symm
    simpa using this
  have hrr : r = r' := congrArg Prod.snd hrun.symm
  subst htr
  subst hrr
  refine ⟨?_, ?_, ?_⟩
  · by_cases hst : ∃ x, r = IterResult.stopped x
    · obtain ⟨pre, e0, hd, hf, hpre⟩ := hs hst
      intro e he'
      rw [hd] at he'
      have : (pre ++ [e0]).dropLast = pre := by simp
      rw [this] at he'
      exact hpre e he'
    · push_neg at hst
      intro e he'
      exact hn hst e (List.dropLast_subset _ he')
  · rintro ⟨x, hx⟩
    obtain ⟨pre, e0, hd, hf, hpre⟩ := hs ⟨x, hx⟩
    subst hx
    refine ⟨rfl, e0, ?_, hf⟩
    rw [hd]
    exact List.getLast?_concat _
  · rintro ⟨e, he', hf⟩
    by_contra hco
    push_neg at hco
    exact absurd hf (by rw [hn hco e he']; simp)

/-- Witness for C4 at a concrete input: an 8-byte all-zero buffer (a childless,
propertyless root node) with a node observer that immediately requests a stop;
the traversal reports success. -/
theorem claim_C4_stop_semantics_witness :
    ((devicetree_iterate (List.replicate 8 0)
        (some (traceNodeCb fun _ _ _ _ _ => true))
        (some (tracePropCb fun _ _ _ _ => false)) ([] : List DTEvent)).2).ok = true :=
  ((claim_C4_stop_semantics (List.replicate 8 0) (fun _ _ _ _ _ => true)
    (fun _ _ _ _ => false) _ _ rfl).2.1 ⟨0, by decide⟩).1

theorem checkDepths_append : ∀ (A : List DTEvent) (cur : Option Nat) (B : List DTEvent),
    checkDepths cur (A ++ B) = (checkDepths cur A && checkDepths (lastNodeD cur A) B) := by
  intro A
  induction A with
  | nil =>
    intro cur B
    simp [checkDepths, lastNodeD]
  | cons e rest ih =>
    intro cur B
    cases e with
    | nodeEv d o sz np nc =>
      simp only [List.cons_append, checkDepths, lastNodeD]
      exact ih (some d) B
    | propEv d nm v sz =>
      simp only [List.cons_append, checkDepths, lastNodeD]
      rw [show rest.append B = rest ++ B from rfl, ih cur B, Bool.and_assoc]

theorem checkDepths_props (d : Nat) : ∀ (A : List DTEvent),
    (∀ e ∈ A, ∃ nm v sz, e = DTEvent.propEv (d + 1) nm v sz) →
    checkDepths (some d) A = true ∧ ∀ cur, lastNodeD cur A = cur := by
  intro A
  induction A with
  | nil => intro _; exact ⟨rfl, fun _ => rfl⟩
  | cons e rest ih =>
    intro h
    obtain ⟨nm, v, sz, he⟩ := h e (List.mem_cons_self _ _)
    subst he
    obtain ⟨h1, h2⟩ := ih (fun x hx => h x (List.mem_cons_of_mem _ hx))
    refine ⟨?_, fun cur => h2 cur⟩
    simp [checkDepths, h1]

/-- The per-child depth check composes over the `childLoop` recursion. -/
theorem childLoop_trace_depths
    (child : Nat → List DTEvent → List DTEvent × IterResult)
    (hchild : ∀ dv s0, ∃ delta r, child dv s0 = (s0 ++ delta, r) ∧
      ∀ cur, checkDepths cur delta = true) :
    ∀ n dv s0, ∃ delta r, childLoop child dv n s0 = (s0 ++ delta, r) ∧
      ∀ cur, checkDepths cur delta = true := by
  intro n
  induction n with
  | zero =>
    intro dv s0
    exact ⟨[], .done dv, by simp [childLoop], fun _ => rfl⟩
  | succ n ih =>
    intro dv s0
    obtain ⟨d1, r1, he1, hc1⟩ := hchild dv s0
    cases r1 with
    | fail =>
      refine ⟨d1, .fail, ?_, hc1⟩
      simp only [childLoop]
      rw [he1]
    | stopped dv2 =>
      refine ⟨d1, .stopped dv2, ?_, hc1⟩
      simp only [childLoop]
      rw [he1]
    | done dv2 =>
      obtain ⟨d2, r, he2, hc2⟩ := ih dv2 (s0 ++ d1)
      refine ⟨d1 ++ d2, r, ?_, ?_⟩
      · simp only [childLoop]
        rw [he1]
        simp only []
        rw [he2]
        simp
      · intro cur
        rw [checkDepths_append, hc1 cur, hc2 (lastNodeD cur d1)]
        rfl

/-- Depth bookkeeping of a full `iterNode` run under tracing observers: the
recorded delta passes the nearest-node depth check from any ambient state, and
(unless empty) begins with the node event for the entered node at the frame
depth. -/
theorem iterNode_trace_depths (buf : List Nat) (endOff : Nat)
    (stopN : Nat → Nat → Nat → Nat → Nat → Bool)
    (stopP : Nat → List Nat → List Nat → Nat → Bool) :
    ∀ fuel off depth s0, ∃ delta r,
      iterNode buf endOff (some (traceNodeCb stopN)) (some (tracePropCb stopP))
        fuel off depth s0 = (s0 ++ delta, r) ∧
      (∀ cur, checkDepths cur delta = true) ∧
      (delta = [] ∨ ∃ o sz np nc rest, delta = DTEvent.nodeEv depth o sz np nc :: rest) := by
  intro fuel
  induction fuel with
  | zero =>
    intro off depth s0
    exact ⟨[], .fail, by simp [iterNode], fun _ => rfl, Or.inl rfl⟩
  | succ fuel ih =>
    intro off depth s0
    by_cases hhd : off + 8 > endOff
    · refine ⟨[], .fail, ?_, fun _ => rfl, Or.inl rfl⟩
      rw [iterNode, if_pos hhd]
      simp
    · cases hb : stopN depth off (endOff - off) (readU32 buf off) (readU32 buf (off + 4)) with
      | true =>
        refine ⟨[DTEvent.nodeEv depth off (endOff - off) (readU32 buf off)
            (readU32 buf (off + 4))], .stopped off, ?_, fun cur => rfl,
            Or.inr ⟨_, _, _, _, _, rfl⟩⟩
        rw [iterNode, if_neg hhd]
        simp only [traceNodeCb]
        rw [hb]
      | false =>
        obtain ⟨d1, rp, he1, hprops1, -, -⟩ :=
          propLoop_trace_stop buf endOff depth stopN stopP (readU32 buf off) (off + 8)
            (s0 ++ [DTEvent.nodeEv depth off (endOff - off) (readU32 buf off)
              (readU32 buf (off + 4))])
        obtain ⟨hck1, hln1⟩ := checkDepths_props depth d1 hprops1
        cases rp with
        | fail =>
          refine ⟨DTEvent.nodeEv depth off (endOff - off) (readU32 buf off)
              (readU32 buf (off + 4)) :: d1, .fail, ?_, ?_,
              Or.inr ⟨_, _, _, _, _, rfl⟩⟩
          · rw [iterNode, if_neg hhd]
            simp only [traceNodeCb]
            rw [hb]
            simp only []
            rw [he1]
            simp
          · intro cur
            exact hck1
        | stopped =>
          refine ⟨DTEvent.nodeEv depth off (endOff - off) (readU32 buf off)
              (readU32 buf (off + 4)) :: d1, .stopped off, ?_, ?_,
              Or.inr ⟨_, _, _, _, _, rfl⟩⟩
          · rw [iterNode, if_neg hhd]
            simp only [traceNodeCb]
            rw [hb]
            simp only []
            rw [he1]
            simp
          · intro cur
            exact hck1
        | ok p =>
          obtain ⟨d2, r2, he2, hc2⟩ :=
            childLoop_trace_depths
              (fun dv s' => iterNode buf endOff (some (traceNodeCb stopN))
                (some (tracePropCb stopP)) fuel dv (depth + 1) s')
              (fun dv s' => by
                obtain ⟨delta, r, heq, hck, -⟩ := ih dv (depth + 1) s'
                exact ⟨delta, r, heq, hck⟩)
              (readU32 buf (off + 4)) p
              (s0 ++ [DTEvent.nodeEv depth off (endOff - off) (readU32 buf off)
                (readU32 buf (off + 4))] ++ d1)
          refine ⟨DTEvent.nodeEv depth off (endOff - off) (readU32 buf off)
              (readU32 buf (off + 4)) :: (d1 ++ d2), r2, ?_, ?_,
              Or.inr ⟨_, _, _, _, _, rfl⟩⟩
          · rw [iterNode, if_neg hhd]
            simp only [traceNodeCb]
            rw [hb]
            simp only []
            rw [he1]
            simp only []
            rw [he2]
            simp
          · intro cur
            show checkDepths (some depth) (d1 ++ d2) = true
            rw [checkDepths_append, hck1, hln1 (some depth), hc2 (some depth)]
            rfl

theorem checkDepths_decomp : ∀ (xs : List DTEvent) (cur : Option Nat)
    (d : Nat) (nm v : List Nat) (sz : Nat) (ys : List DTEvent),
    checkDepths cur (xs ++ DTEvent.propEv d nm v sz :: ys) = true →
    ∃ dn, lastNodeD cur xs = some dn ∧ d = dn + 1 := by
  intro xs
  induction xs with
  | nil =>
    intro cur d nm v sz ys h
    simp only [List.nil_append, checkDepths, Bool.and_eq_true] at h
    cases cur with
    | none => exact absurd h.1 (by simp)
    | some dn => exact ⟨dn, rfl, of_decide_eq_true h.1⟩
  | cons e rest ih =>
    intro cur d nm v sz ys h
    cases e with
    | nodeEv dd o szn np nc =>
      simp only [List.cons_append, checkDepths] at h
      exact ih (some dd) d nm v sz ys h
    | propEv dd nmm vv szz =>
      simp only [List.cons_append, checkDepths, Bool.and_eq_true] at h
      exact ih cur d nm v sz ys h.2

/-- C10: the implicit depth offset between node and property events.  On any
buffer, run `devicetree_iterate` with (non-stopping) tracing observers: every
property event is reported at depth exactly one greater than the depth of the
nearest preceding node event — its owning node — and the first event of a
non-empty trace is the root's node event at depth 0 (while `iterNode` itself
recurses into children at `depth + 1`). -/
theorem claim_C10_prop_depth_offset (buf : List Nat) (tr : List DTEvent)
    (r : IterResult)
    (hrun : devicetree_iterate buf (some (traceNodeCb fun _ _ _ _ _ => false))
      (some (tracePropCb fun _ _ _ _ => false)) [] = (tr, r)) :
    (∀ xs d nm v sz ys, tr = xs ++ DTEvent.propEv d nm v sz :: ys →
      ∃ dn, lastNodeD none xs = some dn ∧ d = dn + 1) ∧
    (∀ e, tr.head? = some e → ∃ o sz np nc, e = DTEvent.nodeEv 0 o sz np nc) := by
  obtain ⟨delta, r', he, hck, hhead⟩ := iterNode_trace_depths buf buf.length
    (fun _ _ _ _ _ => false) (fun _ _ _ _ => false) (buf.length + 1) 0 0 []
  rw [devicetree_iterate, he] at hrun
  have htr : tr = delta := by
    have := congrArg Prod.fst hrun.symm
    simpa using this
  subst htr
  constructor
  · intro xs d nm v sz ys hdec
    exact checkDepths_decomp xs none d nm v sz ys (by rw [← hdec]; exact hck none)
  · intro e hhe
    rcases hhead with h | ⟨o, sz, np, nc, rest, h⟩
    · rw [h] at hhe
      exact absurd hhe (by simp)
    · rw [h] at hhe
      simp only [List.head?_cons, Option.some.injEq] at hhe
      exact ⟨o, sz, np, nc, hhe.symm⟩

/-- Witness for C10 at a concrete input: a single root node with one 1-byte
property; the node event is reported at depth 0 and the property event at
depth 1 = 0 + 1, the nearest (only) preceding node event being the root's. -/
theorem claim_C10_prop_depth_offset_witness :
    ∃ dn, lastNodeD none [DTEvent.nodeEv 0 0 48 1 0] = some dn ∧ 1 = dn + 1 :=
  (claim_C10_prop_depth_offset
    ([1, 0, 0, 0, 0, 0, 0, 0] ++ (110 :: List.replicate 31 0) ++ [1, 0, 0, 0, 170, 0, 0, 0])
    _ _ rfl).1
    [DTEvent.nodeEv 0 0 48 1 0] 1 (110 :: List.replicate 31 0) [170] 1 [] (by decide)

/-- Helper: an encoded property is at least the size field. -/
theorem encProp_len_ge4 (pr : DTProp) : 4 ≤ (encProp pr).length := by
  simp [encProp, u32le]
  omega

/-- Helper: a nonempty encoded property list is at least 4 bytes. -/
theorem encProps_cons_ge4 (pr : DTProp) (rest : List DTProp) :
    4 ≤ (encProps (pr :: rest)).length := by
  rw [encProps]
  have := encProp_len_ge4 pr
  simp
  omega

/-- Helper: `encProps` of a cons, spelled out. -/
theorem encProps_cons (pr : DTProp) (rest : List DTProp) :
    encProps (pr :: rest) = encProp pr ++ encProps rest := by
  rw [encProps]

/-- Helper: a well-formed encoded property is at least 36 bytes. -/
theorem encProp_len_ge36 (pr : DTProp) (h : pr.name.length = 32) :
    36 ≤ (encProp pr).length := by
  rw [encProp_length pr h]
  omega

/-- Helper: an encoded child list headed by `c` is at least 8 bytes. -/
theorem encChildren_cons_ge8 (c : DTTree) (cs : List DTTree) :
    8 ≤ (encChildren (c :: cs)).length := by
  rw [encChildren]
  have := enc_length_ge c
  simp
  omega

/-- Helper: `encChildren` of a cons, spelled out. -/
theorem encChildren_cons (c : DTTree) (cs : List DTTree) :
    encChildren (c :: cs) = enc c ++ encChildren cs := by
  rw [encChildren]

/-- Helper: final padding of the empty property list. -/
theorem padFinalProps_nil : padFinalProps [] = 0 := rfl

/-- Helper: final padding of a one-property list. -/
theorem padFinalProps_single (pr : DTProp) :
    padFinalProps [pr] = padLen pr.value.length := rfl

/-- Helper: final padding ignores all but the last property. -/
theorem padFinalProps_cons (pr r : DTProp) (rest : List DTProp) :
    padFinalProps (pr :: r :: rest) = padFinalProps (r :: rest) := by
  unfold padFinalProps
  rw [List.getLast?_cons_cons]

/-- Helper: final property padding stays below 4 bytes. -/
theorem padFinalProps_le (ps : List DTProp) : padFinalProps ps ≤ 3 := by
  unfold padFinalProps
  cases ps.getLast? with
  | none => simp only []; omega
  | some pr =>
    have := padLen_lt pr.value.length
    simp only []
    omega

/-- Helper: `padFinalT` on a childless node. -/
theorem padFinalT_nilc (ps : List DTProp) :
    padFinalT (.node ps []) = padFinalProps ps := by
  rw [padFinalT]

/-- Helper: `padFinalT` on a node with children. -/
theorem padFinalT_consc (ps : List DTProp) (c : DTTree) (cs : List DTTree) :
    padFinalT (.node ps (c :: cs)) = padFinalC c cs := by
  rw [padFinalT]

/-- Helper: `padFinalC` of a singleton child list. -/
theorem padFinalC_nil (c : DTTree) : padFinalC c [] = padFinalT c := by
  rw [padFinalC]

/-- Helper: `padFinalC` ignores all but the last child. -/
theorem padFinalC_cons (c c' : DTTree) (cs : List DTTree) :
    padFinalC c (c' :: cs) = padFinalC c' cs := by
  rw [padFinalC]

/-- Helper: `padFinalC` is `padFinalT` of some member. -/
theorem padFinalC_mem : ∀ (cs : List DTTree) (c : DTTree),
    ∃ c', c' ∈ c :: cs ∧ padFinalC c cs = padFinalT c' := by
  intro cs
  induction cs with
  | nil =>
    intro c
    exact ⟨c, List.mem_cons_self _ _, padFinalC_nil c⟩
  | cons c2 cs' ih =>
    intro c
    obtain ⟨c', hm, he⟩ := ih c2
    exact ⟨c', List.mem_cons_of_mem _ hm, by rw [padFinalC_cons, he]⟩

/-- Helper: the trailing padding stays below 4 bytes. -/
theorem padFinalT_le_aux (N : Nat) : ∀ t, (enc t).length ≤ N → padFinalT t ≤ 3 := by
  induction N with
  | zero =>
    intro t hN
    have := enc_length_ge t
    omega
  | succ n ih =>
    intro t hN
    cases t with
    | node ps cs =>
      cases cs with
      | nil =>
        rw [padFinalT_nilc]
        exact padFinalProps_le ps
      | cons c cs' =>
        rw [padFinalT_consc]
        obtain ⟨c', hm, he⟩ := padFinalC_mem cs' c
        rw [he]
        have h1 := mem_encChildren_le c' (c :: cs') hm
        have h2 := enc_length_split ps (c :: cs')
        exact ih c' (by omega)

/-- Helper: the trailing padding stays below 4 bytes. -/
theorem padFinalT_le (t : DTTree) : padFinalT t ≤ 3 :=
  padFinalT_le_aux (enc t).length t le_rfl

/-- Helper: positive trailing padding implies a property is present, so the
encoding is comfortably longer than a bare header. -/
theorem padFinalT_pos_aux (N : Nat) :
    ∀ t, (enc t).length ≤ N → 0 < padFinalT t → 12 ≤ (enc t).length := by
  induction N with
  | zero =>
    intro t hN
    have := enc_length_ge t
    omega
  | succ n ih =>
    intro t hN hpos
    cases t with
    | node ps cs =>
      cases cs with
      | nil =>
        rw [padFinalT_nilc] at hpos
        have hlen := enc_length_split ps []
        cases ps with
        | nil => rw [padFinalProps_nil] at hpos; omega
        | cons pr rest =>
          have := encProps_cons_ge4 pr rest
          omega
      | cons c cs' =>
        rw [padFinalT_consc] at hpos
        obtain ⟨c', hm, he⟩ := padFinalC_mem cs' c
        rw [he] at hpos
        have h1 := mem_encChildren_le c' (c :: cs') hm
        have h2 := enc_length_split ps (c :: cs')
        have := ih c' (by omega) hpos
        omega

/-- Helper: positive trailing padding implies at least 12 encoded bytes. -/
theorem padFinalT_pos (t : DTTree) (h : 0 < padFinalT t) : 12 ≤ (enc t).length :=
  padFinalT_pos_aux (enc t).length t le_rfl h

/-- Helper: when fewer than 8 bytes remain before the cut, the node header
check fails immediately. -/
theorem iterNode_header_fail {σ : Type} (buf : List Nat) (endOff : Nat)
    (nodeCb : Option (NodeCb σ)) (propCb : Option (PropCb σ))
    (fuel off depth : Nat) (s : σ) (h : endOff < off + 8) :
    iterNode buf endOff nodeCb propCb fuel off depth s = (s, .fail) := by
  cases fuel with
  | zero => rfl
  | succ f => rw [iterNode, if_pos (by omega)]

/-- Helper: the property loop over a property region truncated strictly inside
it.  The loop fails, except when the cut falls exactly at the unpadded end of
the final property and that property has positive padding: then the source's
padding-easing branch (`prop_size == data_end`) accepts it and the loop
succeeds exactly at the cut. -/
theorem propLoop_trunc {σ : Type} (ps : List DTProp) :
    ∀ (buf : List Nat) (endOff : Nat) (cb : Option (PropCb σ)) (depth q : Nat) (s : σ),
    (∀ pr ∈ ps, wfProp pr = true) →
    sliceEqPartial buf q (encProps ps) endOff →
    q ≤ endOff → endOff < q + (encProps ps).length → endOff ≤ buf.length →
    NoStopP cb →
    ∃ s', propLoop buf endOff cb depth q ps.length s =
      if endOff = q + (encProps ps).length - padFinalProps ps ∧ 0 < padFinalProps ps
      then (s', .ok endOff) else (s', .fail) := by
  induction ps with
  | nil =>
    intro buf endOff cb depth q s _ _ hq hlt _ _
    rw [encProps] at hlt
    simp at hlt
    omega
  | cons pr rest ih =>
    intro buf endOff cb depth q s hwf hs hq hlt hbuf hns
    have hwf1 : wfProp pr = true := hwf pr (List.mem_cons_self _ _)
    obtain ⟨hn32, hn0, hv⟩ := wfProp_facts hwf1
    have hplen := encProp_length pr hn32
    have hpad := padded_eq pr.value.length
    have hlenc : (encProps (pr :: rest)).length =
        (encProp pr).length + (encProps rest).length := by
      rw [encProps_cons]
      simp
    rw [encProps_cons] at hs
    rw [hlenc] at hlt
    by_cases h36 : endOff < q + 36
    · refine ⟨s, ?_⟩
      have hstep : propStep buf endOff q = none := by
        simp only [propStep]
        rw [if_pos (by omega)]
      have hcond : ¬(endOff = q + (encProps (pr :: rest)).length -
          padFinalProps (pr :: rest) ∧ 0 < padFinalProps (pr :: rest)) := by
        cases rest with
        | nil =>
          have h1 := padFinalProps_single pr
          have h2 : (encProps ([] : List DTProp)).length = 0 := rfl
          unfold padLen at h1
          omega
        | cons r rest' =>
          have h1 := padFinalProps_cons pr r rest'
          have h2 := padFinalProps_le (r :: rest')
          have h3 := encProps_cons_ge4 r rest'
          have h4 := encProp_len_ge36 pr hn32
          omega
      show propLoop buf endOff cb depth q (rest.length + 1) s = _
      rw [propLoop, hstep, if_neg hcond]
    · have hsp1 := sliceEqPartial_left hs
      rw [encProp_assoc] at hsp1
      have hspName : sliceEqPartial buf q pr.name endOff := sliceEqPartial_left hsp1
      have hname31 : buf.getD (q + 31) 0 = 0 := by
        have h := hspName 31 (by omega) (by omega)
        rw [h]
        exact hn0
      have hspRest := sliceEqPartial_right hsp1
      rw [hn32] at hspRest
      have hszEq : readU32 buf (q + 32) = pr.value.length := by
        have h4 : sliceEq buf (q + 32) (u32le pr.value.length ++ []) := by
          rw [List.append_nil]
          exact sliceEq_of_partial (sliceEqPartial_left hspRest)
            (by simp [u32le]; omega)
        exact readU32_slice h4 (by omega)
      have hspVP := sliceEqPartial_right hspRest
      rw [show (u32le pr.value.length).length = 4 from rfl] at hspVP
      rw [show q + 32 + 4 = q + 36 from by omega] at hspVP
      have hmask : pr.value.length % 2147483648 = pr.value.length := Nat.mod_eq_of_lt hv
      have hnameX : (buf.drop q).take 32 = pr.name := by
        have h1 : sliceEq buf q pr.name :=
          sliceEq_of_partial hspName (by omega)
        have h2 := slice_extract h1 (by omega)
        rwa [hn32] at h2
      by_cases hfit : q + 36 + (pr.value.length + 3) / 4 * 4 ≤ endOff
      · -- the whole padded property lies below the cut
        have hstep : propStep buf endOff q =
            some (pr.value.length, q + (encProp pr).length) := by
          simp only [propStep]
          rw [if_neg (by omega)]
          rw [if_neg (by rw [hname31]; simp)]
          rw [hszEq, hmask]
          rw [if_neg (show ¬(q + 36 + (pr.value.length + 3) / 4 * 4 > endOff) from by omega)]
          exact congrArg some (by rw [hplen, Nat.add_assoc])
        cases rest with
        | nil =>
          exfalso
          have h2 : (encProps ([] : List DTProp)).length = 0 := rfl
          omega
        | cons r rest' =>
          have hvalX : (buf.drop (q + 36)).take pr.value.length = pr.value := by
            have h1 : sliceEq buf (q + 36) pr.value :=
              sliceEq_of_partial (sliceEqPartial_left hspVP) (by omega)
            exact slice_extract h1 (by omega)
          have hrecArgs : sliceEqPartial buf (q + (encProp pr).length)
              (encProps (r :: rest')) endOff := sliceEqPartial_right hs
          have hpfc := padFinalProps_cons pr r rest'
          cases cb with
          | none =>
            obtain ⟨s2, hrec⟩ := ih buf endOff none depth (q + (encProp pr).length) s
              (fun x hx => hwf x (List.mem_cons_of_mem _ hx)) hrecArgs (by omega)
              (by omega) hbuf hns
            refine ⟨s2, ?_⟩
            show propLoop buf endOff none depth q ((r :: rest').length + 1) s = _
            rw [propLoop, hstep]
            show propLoop buf endOff none depth (q + (encProp pr).length)
              (r :: rest').length s = _
            rw [hrec]
            by_cases hc : endOff = q + (encProp pr).length +
                (encProps (r :: rest')).length - padFinalProps (r :: rest') ∧
                0 < padFinalProps (r :: rest')
            · rw [if_pos (by omega), if_pos (by omega)]
            · rw [if_neg (by omega), if_neg (by omega)]
          | some f =>
            have hflag := hns f rfl (depth + 1) pr.name pr.value pr.value.length s
            cases hcall : f (depth + 1) pr.name pr.value pr.value.length s with
            | mk s1 flag =>
              rw [hcall] at hflag
              have hflag2 : flag = false := hflag
              subst hflag2
              obtain ⟨s2, hrec⟩ := ih buf endOff (some f) depth (q + (encProp pr).length) s1
                (fun x hx => hwf x (List.mem_cons_of_mem _ hx)) hrecArgs (by omega)
                (by omega) hbuf hns
              refine ⟨s2, ?_⟩
              show propLoop buf endOff (some f) depth q ((r :: rest').length + 1) s = _
              rw [propLoop, hstep]
              show (match f (depth + 1) ((buf.drop q).take 32)
                      ((buf.drop (q + 36)).take pr.value.length) pr.value.length s with
                    | (s', true) => (s', PropLoopResult.stopped)
                    | (s', false) =>
                      propLoop buf endOff (some f) depth (q + (encProp pr).length)
                        (r :: rest').length s') = _
              rw [hnameX, hvalX, hcall]
              show propLoop buf endOff (some f) depth (q + (encProp pr).length)
                (r :: rest').length s1 = _
              rw [hrec]
              by_cases hc : endOff = q + (encProp pr).length +
                  (encProps (r :: rest')).length - padFinalProps (r :: rest') ∧
                  0 < padFinalProps (r :: rest')
              · rw [if_pos (by omega), if_pos (by omega)]
              · rw [if_neg (by omega), if_neg (by omega)]
      · by_cases hease : q + 36 + pr.value.length = endOff
        · -- padding-easing branch: the unpadded final extent reaches the cut
          have hstep : propStep buf endOff q = some (pr.value.length, endOff) := by
            simp only [propStep]
            rw [if_neg (by omega)]
            rw [if_neg (by rw [hname31]; simp)]
            rw [hszEq, hmask]
            rw [if_pos (by omega), if_pos hease]
          have hvalX : (buf.drop (q + 36)).take pr.value.length = pr.value := by
            have h1 : sliceEq buf (q + 36) pr.value :=
              sliceEq_of_partial (sliceEqPartial_left hspVP) (by omega)
            exact slice_extract h1 (by omega)
          cases rest with
          | nil =>
            have hpfs := padFinalProps_single pr
            have hpads : pr.value.length + padLen pr.value.length =
                (pr.value.length + 3) / 4 * 4 := padded_eq _
            have h2 : (encProps ([] : List DTProp)).length = 0 := rfl
            cases cb with
            | none =>
              refine ⟨s, ?_⟩
              show propLoop buf endOff none depth q (0 + 1) s = _
              rw [propLoop, hstep]
              show (s, PropLoopResult.ok endOff) = _
              rw [if_pos (by omega)]
            | some f =>
              have hflag := hns f rfl (depth + 1) pr.name pr.value pr.value.length s
              cases hcall : f (depth + 1) pr.name pr.value pr.value.length s with
              | mk s1 flag =>
                rw [hcall] at hflag
                have hflag2 : flag = false := hflag
                subst hflag2
                refine ⟨s1, ?_⟩
                show propLoop buf endOff (some f) depth q (0 + 1) s = _
                rw [propLoop, hstep]
                show (match f (depth + 1) ((buf.drop q).take 32)
                        ((buf.drop (q + 36)).take pr.value.length) pr.value.length s with
                      | (s', true) => (s', PropLoopResult.stopped)
                      | (s', false) =>
                        propLoop buf endOff (some f) depth endOff 0 s') = _
                rw [hnameX, hvalX, hcall]
                show (s1, PropLoopResult.ok endOff) = _
                rw [if_pos (by omega)]
          | cons r rest' =>
            have hstep2 : propStep buf endOff endOff = none := by
              simp only [propStep]
              rw [if_pos (by omega)]
            have hpfc := padFinalProps_cons pr r rest'
            have h2 := padFinalProps_le (r :: rest')
            have h3 := encProps_cons_ge4 r rest'
            have hpads : pr.value.length + padLen pr.value.length =
                (pr.value.length + 3) / 4 * 4 := padded_eq _
            have hcond : ¬(endOff = q + (encProps (pr :: r :: rest')).length -
                padFinalProps (pr :: r :: rest') ∧
                0 < padFinalProps (pr :: r :: rest')) := by omega
            cases cb with
            | none =>
              refine ⟨s, ?_⟩
              show propLoop buf endOff none depth q ((r :: rest').length + 1) s = _
              rw [propLoop, hstep]
              show propLoop buf endOff none depth endOff (rest'.length + 1) s = _
              rw [propLoop, hstep2, if_neg hcond]
            | some f =>
              have hflag := hns f rfl (depth + 1) pr.name pr.value pr.value.length s
              cases hcall : f (depth + 1) pr.name pr.value pr.value.length s with
              | mk s1 flag =>
                rw [hcall] at hflag
                have hflag2 : flag = false := hflag
                subst hflag2
                refine ⟨s1, ?_⟩
                show propLoop buf endOff (some f) depth q ((r :: rest').length + 1) s = _
                rw [propLoop, hstep]
                show (match f (depth + 1) ((buf.drop q).take 32)
                        ((buf.drop (q + 36)).take pr.value.length) pr.value.length s with
                      | (s', true) => (s', PropLoopResult.stopped)
                      | (s', false) =>
                        propLoop buf endOff (some f) depth endOff (r :: rest').length s') = _
                rw [hnameX, hvalX, hcall]
                show propLoop buf endOff (some f) depth endOff (rest'.length + 1) s1 = _
                rw [propLoop, hstep2, if_neg hcond]
        · -- the cut interrupts the property and is not at its unpadded end
          refine ⟨s, ?_⟩
          have hstep : propStep buf endOff q = none := by
            simp only [propStep]
            rw [if_neg (by omega)]
            rw [if_neg (by rw [hname31]; simp)]
            rw [hszEq, hmask]
            rw [if_pos (by omega), if_neg hease]
          have hcond : ¬(endOff = q + (encProps (pr :: rest)).length -
              padFinalProps (pr :: rest) ∧ 0 < padFinalProps (pr :: rest)) := by
            cases rest with
            | nil =>
              have hpfs := padFinalProps_single pr
              have hpads : pr.value.length + padLen pr.value.length =
                  (pr.value.length + 3) / 4 * 4 := padded_eq _
              have h2 : (encProps ([] : List DTProp)).length = 0 := rfl
              omega
            | cons r rest' =>
              have hpfc := padFinalProps_cons pr r rest'
              have h2 := padFinalProps_le (r :: rest')
              have h3 := encProps_cons_ge4 r rest'
              have hpads : pr.value.length + padLen pr.value.length =
                  (pr.value.length + 3) / 4 * 4 := padded_eq _
              omega
          show propLoop buf endOff cb depth q (rest.length + 1) s = _
          rw [propLoop, hstep, if_neg hcond]

/-- Helper: the walker on a subtree region truncated strictly inside it.  The
parse fails, except when the cut falls exactly at the unpadded end of the
subtree's byte-wise final property (one with positive padding): there the
padding-easing branch makes the walk succeed exactly at the cut. -/
theorem iterNode_trunc (N : Nat) :
    ∀ (t : DTTree), (enc t).length ≤ N → wfTree t = true →
    ∀ {σ : Type} (buf : List Nat) (endOff : Nat) (nodeCb : Option (NodeCb σ))
      (propCb : Option (PropCb σ)) (fuel off depth : Nat) (s : σ),
    sliceEqPartial buf off (enc t) endOff →
    off ≤ endOff → endOff < off + (enc t).length → endOff ≤ buf.length →
    endOff - off < fuel → NoStopN nodeCb → NoStopP propCb →
    ∃ s', iterNode buf endOff nodeCb propCb fuel off depth s =
      if endOff - off = (enc t).length - padFinalT t ∧ 0 < padFinalT t
      then (s', .done endOff) else (s', .fail) := by
  induction N with
  | zero =>
    intro t hN
    have := enc_length_ge t
    omega
  | succ n ihN =>
    intro t hN hwf σ buf endOff nodeCb propCb fuel off depth s hs hole holt hbuf hfuel hnN hnP
    cases t with
    | node ps cs =>
      obtain ⟨hpc, hcc, hpwf, hcwf⟩ := wfTree_node hwf
      have hlen := enc_length_split ps cs
      have h8 : 8 ≤ (enc (DTTree.node ps cs)).length := enc_length_ge _
      by_cases hhd : endOff < off + 8
      · have hcond : ¬(endOff - off = (enc (DTTree.node ps cs)).length -
            padFinalT (DTTree.node ps cs) ∧ 0 < padFinalT (DTTree.node ps cs)) := by
          by_cases hp : 0 < padFinalT (DTTree.node ps cs)
          · have h12 := padFinalT_pos _ hp
            have h3 := padFinalT_le (DTTree.node ps cs)
            omega
          · omega
        refine ⟨s, ?_⟩
        rw [iterNode_header_fail buf endOff nodeCb propCb fuel off depth s (by omega),
          if_neg hcond]
      · cases fuel with
        | zero => omega
        | succ f =>
          have hs' : sliceEqPartial buf off (u32le ps.length ++ (u32le cs.length ++
              (encProps ps ++ encChildren cs))) endOff := by
            rw [enc_eq] at hs
            rwa [List.append_assoc, List.append_assoc] at hs
          have hr1 : readU32 buf off = ps.length := by
            have h4 : sliceEq buf off (u32le ps.length ++ []) := by
              rw [List.append_nil]
              exact sliceEq_of_partial (sliceEqPartial_left hs') (by simp [u32le]; omega)
            exact readU32_slice h4 hpc
          have hs2 := sliceEqPartial_right hs'
          rw [show (u32le ps.length).length = 4 from rfl] at hs2
          have hr2 : readU32 buf (off + 4) = cs.length := by
            have h4 : sliceEq buf (off + 4) (u32le cs.length ++ []) := by
              rw [List.append_nil]
              exact sliceEq_of_partial (sliceEqPartial_left hs2) (by simp [u32le]; omega)
            exact readU32_slice h4 hcc
          have hs3 := sliceEqPartial_right hs2
          rw [show (u32le cs.length).length = 4 from rfl] at hs3
          rw [show off + 4 + 4 = off + 8 from by omega] at hs3
          have hspP : sliceEqPartial buf (off + 8) (encProps ps) endOff :=
            sliceEqPartial_left hs3
          have hspC : sliceEqPartial buf (off + 8 + (encProps ps).length)
              (encChildren cs) endOff := sliceEqPartial_right hs3
          have hcont : ∀ s1 : σ, ∃ s',
              (match propLoop buf endOff propCb depth (off + 8) ps.length s1 with
               | (s2, PropLoopResult.fail) => (s2, IterResult.fail)
               | (s2, PropLoopResult.stopped) => (s2, IterResult.stopped off)
               | (s2, PropLoopResult.ok p) =>
                 childLoop (fun dv s4 => iterNode buf endOff nodeCb propCb f dv (depth + 1) s4)
                   p cs.length s2) =
              if endOff - off = (enc (DTTree.node ps cs)).length -
                  padFinalT (DTTree.node ps cs) ∧ 0 < padFinalT (DTTree.node ps cs)
              then (s', IterResult.done endOff) else (s', IterResult.fail) := by
            intro s1
            by_cases hPend : endOff < off + 8 + (encProps ps).length
            · obtain ⟨s2, hpl⟩ := propLoop_trunc ps buf endOff propCb depth (off + 8) s1
                hpwf hspP (by omega) (by omega) hbuf hnP
              by_cases hcp : endOff = off + 8 + (encProps ps).length - padFinalProps ps ∧
                  0 < padFinalProps ps
              · rw [if_pos hcp] at hpl
                rw [hpl]
                cases cs with
                | nil =>
                  have hpnil := padFinalT_nilc ps
                  have h0 : (encChildren ([] : List DTTree)).length = 0 := rfl
                  refine ⟨s2, ?_⟩
                  show childLoop _ endOff 0 s2 = _
                  rw [childLoop, if_pos (show _ ∧ _ from ⟨by omega, by omega⟩)]
                | cons c1 cs' =>
                  have hpcT := padFinalT_consc ps c1 cs'
                  have hple := padFinalT_le (DTTree.node ps (c1 :: cs'))
                  have hC8 := encChildren_cons_ge8 c1 cs'
                  refine ⟨s2, ?_⟩
                  show childLoop _ endOff (cs'.length + 1) s2 = _
                  rw [childLoop]
                  rw [iterNode_header_fail buf endOff nodeCb propCb f endOff (depth + 1) s2
                    (by omega)]
                  show (s2, IterResult.fail) = _
                  rw [if_neg (by omega)]
              · rw [if_neg hcp] at hpl
                rw [hpl]
                refine ⟨s2, ?_⟩
                show (s2, IterResult.fail) = _
                cases cs with
                | nil =>
                  have hpnil := padFinalT_nilc ps
                  have h0 : (encChildren ([] : List DTTree)).length = 0 := rfl
                  rw [if_neg (by omega)]
                | cons c1 cs' =>
                  have hpcT := padFinalT_consc ps c1 cs'
                  have hple := padFinalT_le (DTTree.node ps (c1 :: cs'))
                  have hC8 := encChildren_cons_ge8 c1 cs'
                  rw [if_neg (by omega)]
            · have hspFull : sliceEq buf (off + 8) (encProps ps) :=
                sliceEq_of_partial hspP (by omega)
              rw [propLoop_enc ps buf endOff propCb depth (off + 8) s1 hpwf hspFull
                (by omega) hbuf hnP]
              cases cs with
              | nil =>
                exfalso
                have h0 : (encChildren ([] : List DTTree)).length = 0 := rfl
                omega
              | cons c1 cs' =>
                have hchildT : ∀ (cs2 : List DTTree) (c0 : DTTree),
                    (∀ x ∈ c0 :: cs2, x ∈ c1 :: cs') →
                    ∀ (dv : Nat) (s2 : σ),
                    sliceEqPartial buf dv (encChildren (c0 :: cs2)) endOff →
                    dv ≤ endOff → endOff < dv + (encChildren (c0 :: cs2)).length →
                    off + 8 ≤ dv →
                    ∃ s3, childLoop
                        (fun dv2 s4 => iterNode buf endOff nodeCb propCb f dv2 (depth + 1) s4)
                        dv (c0 :: cs2).length s2 =
                      if endOff - dv = (encChildren (c0 :: cs2)).length - padFinalC c0 cs2 ∧
                          0 < padFinalC c0 cs2
                      then (s3, IterResult.done endOff) else (s3, IterResult.fail) := by
                  intro cs2
                  induction cs2 with
                  | nil =>
                    intro c0 hmem dv s2 hsl hdvle hdvlt hdv8
                    have hc0mem : c0 ∈ c1 :: cs' := hmem c0 (List.mem_cons_self _ _)
                    have hc0le := mem_encChildren_le c0 (c1 :: cs') hc0mem
                    have hc0n : (enc c0).length ≤ n := by omega
                    have hC0len : (encChildren [c0]).length = (enc c0).length := by
                      rw [encChildren_cons]
                      simp [encChildren]
                    rw [encChildren_cons] at hsl
                    have hsl0 : sliceEqPartial buf dv (enc c0) endOff := sliceEqPartial_left hsl
                    rw [hC0len] at hdvlt
                    obtain ⟨s3, hrec⟩ := ihN c0 hc0n (wfChildren_mem hcwf c0 hc0mem) buf endOff
                      nodeCb propCb f dv (depth + 1) s2 hsl0 hdvle hdvlt hbuf (by omega) hnN hnP
                    have hpc := padFinalC_nil c0
                    refine ⟨s3, ?_⟩
                    show childLoop _ dv (0 + 1) s2 = _
                    rw [childLoop]
                    by_cases hc : endOff - dv = (enc c0).length - padFinalT c0 ∧
                        0 < padFinalT c0
                    · rw [if_pos hc] at hrec
                      rw [hrec]
                      show childLoop _ endOff 0 s3 = _
                      rw [childLoop, if_pos (show _ ∧ _ from ⟨by omega, by omega⟩)]
                    · rw [if_neg hc] at hrec
                      rw [hrec]
                      show (s3, IterResult.fail) = _
                      rw [if_neg (by omega)]
                  | cons c2 cs3 ihc =>
                    intro c0 hmem dv s2 hsl hdvle hdvlt hdv8
                    have hc0mem : c0 ∈ c1 :: cs' := hmem c0 (List.mem_cons_self _ _)
                    have hc0le := mem_encChildren_le c0 (c1 :: cs') hc0mem
                    have hc0n : (enc c0).length ≤ n := by omega
                    rw [encChildren_cons] at hsl
                    have hlen2 : (encChildren (c0 :: c2 :: cs3)).length =
                        (enc c0).length + (encChildren (c2 :: cs3)).length := by
                      rw [encChildren_cons]
                      simp
                    rw [hlen2] at hdvlt
                    have hpcc := padFinalC_cons c0 c2 cs3
                    obtain ⟨cx, hcx, hex⟩ := padFinalC_mem cs3 c2
                    have hple := padFinalT_le cx
                    have hC2len := encChildren_cons_ge8 c2 cs3
                    by_cases hcut : endOff < dv + (enc c0).length
                    · obtain ⟨s3, hrec⟩ := ihN c0 hc0n (wfChildren_mem hcwf c0 hc0mem) buf
                        endOff nodeCb propCb f dv (depth + 1) s2 (sliceEqPartial_left hsl)
                        hdvle hcut hbuf (by omega) hnN hnP
                      by_cases hc : endOff - dv = (enc c0).length - padFinalT c0 ∧
                          0 < padFinalT c0
                      · rw [if_pos hc] at hrec
                        refine ⟨s3, ?_⟩
                        show childLoop _ dv ((cs3.length + 1) + 1) s2 = _
                        rw [childLoop, hrec]
                        show childLoop _ endOff (cs3.length + 1) s3 = _
                        rw [childLoop]
                        rw [iterNode_header_fail buf endOff nodeCb propCb f endOff (depth + 1)
                          s3 (by omega)]
                        show (s3, IterResult.fail) = _
                        rw [if_neg (by omega)]
                      · rw [if_neg hc] at hrec
                        refine ⟨s3, ?_⟩
                        show childLoop _ dv ((cs3.length + 1) + 1) s2 = _
                        rw [childLoop, hrec]
                        show (s3, IterResult.fail) = _
                        rw [if_neg (by omega)]
                    · have hslc0 : sliceEq buf dv (enc c0) :=
                        sliceEq_of_partial (sliceEqPartial_left hsl) (by omega)
                      obtain ⟨s3, hint⟩ := iterNode_enc (enc c0).length c0 le_rfl
                        (wfChildren_mem hcwf c0 hc0mem) buf endOff nodeCb propCb f dv
                        (depth + 1) s2 hslc0 (by omega) hbuf (by omega) hnN hnP
                      obtain ⟨s4, hrec⟩ := ihc c2
                        (fun x hx => hmem x (List.mem_cons_of_mem _ hx))
                        (dv + (enc c0).length) s3 (sliceEqPartial_right hsl) (by omega)
                        (by omega) (by omega)
                      refine ⟨s4, ?_⟩
                      show childLoop _ dv ((cs3.length + 1) + 1) s2 = _
                      rw [childLoop, hint]
                      show childLoop _ (dv + (enc c0).length) (cs3.length + 1) s3 = _
                      simp only [List.length_cons] at hrec
                      rw [hrec]
                      by_cases hc : endOff - (dv + (enc c0).length) =
                          (encChildren (c2 :: cs3)).length - padFinalC c2 cs3 ∧
                          0 < padFinalC c2 cs3
                      · rw [if_pos hc, if_pos (show _ ∧ _ from ⟨by omega, by omega⟩)]
                      · rw [if_neg hc, if_neg (by omega)]
                have hpcT := padFinalT_consc ps c1 cs'
                obtain ⟨cx2, hcx2, hex2⟩ := padFinalC_mem cs' c1
                have hple2 := padFinalT_le cx2
                have hC8 := encChildren_cons_ge8 c1 cs'
                obtain ⟨s3, hcl⟩ := hchildT cs' c1 (fun x hx => hx)
                  (off + 8 + (encProps ps).length) (propsFold propCb depth s1 ps) hspC
                  (by omega) (by omega) (by omega)
                refine ⟨s3, ?_⟩
                show childLoop _ (off + 8 + (encProps ps).length) (cs'.length + 1)
                  (propsFold propCb depth s1 ps) = _
                simp only [List.length_cons] at hcl
                rw [hcl]
                by_cases hc : endOff - (off + 8 + (encProps ps).length) =
                    (encChildren (c1 :: cs')).length - padFinalC c1 cs' ∧
                    0 < padFinalC c1 cs'
                · rw [if_pos hc, if_pos (show _ ∧ _ from ⟨by omega, by omega⟩)]
                · rw [if_neg hc, if_neg (by omega)]
          cases nodeCb with
          | none =>
            obtain ⟨s', hc⟩ := hcont s
            refine ⟨s', ?_⟩
            simp only [iterNode]
            rw [if_neg (show ¬(off + 8 > endOff) from by omega)]
            rw [hr1, hr2]
            try simp only []
            exact hc
          | some fcb =>
            have hflag := hnN fcb rfl depth off (endOff - off) ps.length cs.length s
            simp only [iterNode]
            rw [if_neg (show ¬(off + 8 > endOff) from by omega)]
            rw [hr1, hr2]
            try simp only []
            cases hcall : fcb depth off (endOff - off) ps.length cs.length s with
            | mk s1 flag =>
              rw [hcall] at hflag
              have hflag2 : flag = false := hflag
              subst hflag2
              try simp only []
              obtain ⟨s', hc⟩ := hcont s1
              exact ⟨s', hc⟩

/-- C2 (corrected): truncating the valid encoding of a well-formed tree at a
byte boundary `n` strictly before its end makes `devicetree_iterate` (with
non-stopping observers) return `ok = false` — except at exactly one cut.  When
the byte-wise final property has positive padding and the cut is at that
property's unpadded end (`(enc t).length - padFinalT t`), the walker's
padding-easing branch (`prop_size == data_end`, devicetree-parse.c lines
60-66) accepts the truncated buffer and the traversal reports a false success
`.done n`.  The claim's "never a false success" fails at that cut and holds
everywhere else; all reads stay below the stated bound by construction. -/
theorem claim_C2_truncation (t : DTTree) {σ : Type} (nodeCb : Option (NodeCb σ))
    (propCb : Option (PropCb σ)) (s : σ) (n : Nat)
    (hwf : wfTree t = true) (hN : NoStopN nodeCb) (hP : NoStopP propCb)
    (hn : n < (enc t).length) :
    (devicetree_iterate ((enc t).take n) nodeCb propCb s).2 =
      if n = (enc t).length - padFinalT t ∧ 0 < padFinalT t
      then .done n else .fail := by
  have hbl : ((enc t).take n).length = n := by
    simp
    omega
  obtain ⟨s', h⟩ := iterNode_trunc (enc t).length t le_rfl hwf ((enc t).take n) n
    nodeCb propCb (n + 1) 0 0 s (sliceEqPartial_take _ _) (by omega) (by omega)
    (by omega) (by omega) hN hP
  simp only [Nat.sub_zero] at h
  unfold devicetree_iterate
  rw [hbl, h]
  by_cases hc : n = (enc t).length - padFinalT t ∧ 0 < padFinalT t
  · rw [if_pos hc, if_pos hc]
  · rw [if_neg hc, if_neg hc]

/-- Counterexample to C2 as stated: the valid 48-byte encoding of a root node
with a single 1-byte property, truncated at byte 45 — a byte boundary strictly
before the completion of its final (padded) property — is accepted by
`devicetree_iterate`, which returns `ok = true`: a false success through the
padding-easing branch. -/
theorem claim_C2_truncation_counterexample :
    wfTree (DTTree.node [⟨110 :: List.replicate 31 0, [170]⟩] []) = true ∧
    (enc (DTTree.node [⟨110 :: List.replicate 31 0, [170]⟩] [])).length = 48 ∧
    ((devicetree_iterate
        ((enc (DTTree.node [⟨110 :: List.replicate 31 0, [170]⟩] [])).take 45)
        (none : Option (NodeCb Unit)) none ()).2).ok = true := by
  decide

/-- Witness for the corrected C2 at a concrete non-easing cut: the same
48-byte encoding truncated at byte 44 is rejected. -/
theorem claim_C2_truncation_witness :
    (devicetree_iterate
        ((enc (DTTree.node [⟨110 :: List.replicate 31 0, [170]⟩] [])).take 44)
        (none : Option (NodeCb Unit)) none ()).2 = IterResult.fail := by
  have hpad : padFinalT (DTTree.node [⟨110 :: List.replicate 31 0, [170]⟩] []) = 3 := by
    rw [padFinalT_nilc]
    decide
  have hL : (enc (DTTree.node [⟨110 :: List.replicate 31 0, [170]⟩] [])).length = 48 := by
    decide
  rw [claim_C2_truncation (DTTree.node [⟨110 :: List.replicate 31 0, [170]⟩] [])
    none none () 44 (by decide) (fun g h => Option.noConfusion h)
    (fun g h => Option.noConfusion h) (by rw [hL]; omega)]
  rw [if_neg (by rw [hpad, hL]; omega)]

end DTParse
